import Mathlib

/-!
Verification development for the `assay` repository trace-recording protocol.

Embedded components (shallow embedding, translated from the Python sources):

* `src/verdict-sdk/python/verdict_sdk/writer.py` — `TraceWriter` and its
  `write_event`, whose encoder is `json.dumps(event, sort_keys=True,
  separators=(",", ":"), ensure_ascii=False)`.
* `src/examples/agent-demo-2/agent.py` — the trace data model (`ToolCall`,
  `Step`, `Episode`), `execute_tool`, `FunctionCallingAgent.run`, and
  `episode_to_jsonl`.

Modelling conventions:

* Python values reaching `json.dumps` are modelled by the closed universe
  `PyVal` of null, booleans, arbitrary-precision integers, the three
  non-finite floats (`nan`, `inf`, `ninf`), strings, lists and dicts.
  Finite floats are outside the embedding (their Python rendering is
  IEEE-754 `repr`, not representable in this shallow embedding); no claim
  depends on a finite-float value.  Dict keys are strings or integers
  (`PyKey`), covering every key shape the claims exercise.
* `json.dumps` is modelled by `dumpsV cfg`, parameterised by the call-site
  configuration (`sort_keys`, the two separators, `ensure_ascii`), with the
  CPython defaults `skipkeys=False` and `allow_nan=True` baked in: non-finite
  floats are rendered as `NaN` / `Infinity` / `-Infinity`, integer dict keys
  are coerced to their decimal strings, and sorting a dict that mixes
  integer and string keys raises `TypeError` (modelled as `Except.error`
  with the fixed message `sortErrMsg`).  CPython sorts the `(key, value)`
  items and then renders each; `dumpsV` renders each value and then sorts
  the `(key, rendered)` pairs — the comparator looks only at keys, and the
  insertion sort used here is stable, so the emitted entry order is the same.
* `datetime` values are modelled as integer milliseconds since the epoch
  (which is exactly the granularity `episode_to_jsonl` extracts from them);
  the wall clock is passed in as an explicit `now` parameter, and `uuid4`
  hex fragments as explicit string parameters, making every function pure.
-/

namespace Assay

/-- Python `sep.join(parts)`. -/
def joinSep (sep : String) : List String → String
  | [] => ""
  | [s] => s
  | s :: rest => s ++ sep ++ joinSep sep rest

/-- Decimal digits of a natural number, most significant first, no leading
zeros (single `'0'` for zero) — Python `str` on a non-negative int.  Fuel-based
so that the definition is structurally recursive and kernel-reducible. -/
def natDigitsAux : Nat → Nat → List Char
  | 0, _ => []
  | fuel + 1, n =>
      if n < 10 then [Nat.digitChar n]
      else natDigitsAux fuel (n / 10) ++ [Nat.digitChar (n % 10)]

def natDigits (n : Nat) : List Char := natDigitsAux (n + 1) n

/-- Python `str` on an int (decimal, `-` sign for negatives). -/
def intRepr : Int → String
  | .ofNat n => ⟨natDigits n⟩
  | .negSucc m => "-" ++ ⟨natDigits (m + 1)⟩

/-- Python `f"{n:03d}"`: decimal rendering left-padded with zeros to width 3
(wider numbers are rendered in full). -/
def pad3 (n : Nat) : String :=
  ⟨List.replicate (3 - (natDigits n).length) '0' ++ natDigits n⟩

/-- Step ids as built at both step-creation sites of
`FunctionCallingAgent.run`: `f"{episode.episode_id}_step_{step_idx:03d}"`. -/
def mkStepId (epId : String) (idx : Nat) : String :=
  epId ++ "_step_" ++ pad3 idx

/-- Four lowercase hex digits (Python `"\\u%04x"` escapes). -/
def hex4 (n : Nat) : List Char :=
  [Nat.digitChar (n / 4096 % 16), Nat.digitChar (n / 256 % 16),
   Nat.digitChar (n / 16 % 16), Nat.digitChar (n % 16)]

/-- The JSON escape of one character, as produced by CPython `json`:
`"` and `\` get a backslash escape, the five short control escapes are used,
remaining chars below `0x20` become `\uXXXX`; with `ensure_ascii` every char
outside printable ASCII is `\uXXXX`-escaped (surrogate pairs above
`0xFFFF`). -/
def escChar (ensureAscii : Bool) (c : Char) : List Char :=
  if c = '"' then ['\\', '"']
  else if c = '\\' then ['\\', '\\']
  else if c = '\n' then ['\\', 'n']
  else if c = '\t' then ['\\', 't']
  else if c = '\r' then ['\\', 'r']
  else if c = '\x08' then ['\\', 'b']
  else if c = '\x0c' then ['\\', 'f']
  else if c.toNat < 0x20 then '\\' :: 'u' :: hex4 c.toNat
  else if ensureAscii && 0x7f ≤ c.toNat then
    if c.toNat < 0x10000 then '\\' :: 'u' :: hex4 c.toNat
    else
      let v := c.toNat - 0x10000
      ('\\' :: 'u' :: hex4 (0xd800 + v / 1024)) ++ ('\\' :: 'u' :: hex4 (0xdc00 + v % 1024))
  else [c]

/-- A JSON string literal: quote, escape every character, quote. -/
def escString (ensureAscii : Bool) (s : String) : String :=
  "\"" ++ ⟨(s.data.map (escChar ensureAscii)).flatten⟩ ++ "\""

/-- Dict keys reaching the encoder: Python strings or ints.  (Other hashable
key types exist in Python but none is used by the repository or the claims.) -/
inductive PyKey where
  | kstr (s : String)
  | kint (n : Int)
deriving DecidableEq, Repr

/-- The Python values reaching `json.dumps` in this repository: `None`,
booleans, ints, the non-finite floats, strings, lists, dicts. -/
inductive PyVal where
  | pynone
  | pybool (b : Bool)
  | pyint (n : Int)
  | nan
  | inf
  | ninf
  | pystr (s : String)
  | pylist (xs : List PyVal)
  | pydict (kvs : List (PyKey × PyVal))
deriving Repr

/-- The `json.dumps` keyword arguments used at the repository call sites. -/
structure DumpCfg where
  sortKeys : Bool
  itemSep : String
  kvSep : String
  ensureAscii : Bool
deriving Repr

/-- The writer encoder configuration:
`json.dumps(event, sort_keys=True, separators=(",", ":"), ensure_ascii=False)`
from `TraceWriter.write_event`. -/
def writerCfg : DumpCfg := ⟨true, ",", ":", false⟩

/-- Plain `json.dumps(obj)` as called inside `agent.py` (all defaults:
`sort_keys=False`, separators `", "` / `": "`, `ensure_ascii=True`). -/
def plainCfg : DumpCfg := ⟨false, ", ", ": ", true⟩

/-- Message of the `TypeError` CPython raises when `sort_keys=True` compares
an int key with a str key. -/
def sortErrMsg : String := "TypeError: unorderable dict keys"

/-- Rendering of a dict key: str keys are JSON-escaped, int keys are coerced
to their decimal string (CPython `skipkeys=False` int-key coercion). -/
def keyRepr (ensureAscii : Bool) : PyKey → String
  | .kstr s => escString ensureAscii s
  | .kint n => "\"" ++ intRepr n ++ "\""

def PyKey.isInt : PyKey → Bool
  | .kint _ => true
  | _ => false

def PyKey.isStr : PyKey → Bool
  | .kstr _ => true
  | _ => false

/-- Key comparison used by `sort_keys=True`: ints numerically, strings
lexicographically; comparing across the two kinds is the `TypeError` case and
is screened out before sorting. -/
def pkeyLE : PyKey → PyKey → Bool
  | .kint a, .kint b => decide (a ≤ b)
  | .kstr a, .kstr b => decide (a ≤ b)
  | _, _ => false

/-- Insertion of one element into a sorted list (comparator as a `Bool`
function). -/
def insertLE (le : α → α → Bool) (a : α) : List α → List α
  | [] => [a]
  | b :: l => if le a b then a :: b :: l else b :: insertLE le a l

/-- Insertion sort — stable, hence (for the key-only comparator used below)
it emits entries in the same order CPython `sorted` does. -/
def isortLE (le : α → α → Bool) : List α → List α
  | [] => []
  | a :: l => insertLE le a (isortLE le l)

/-- The `sort_keys=True` step on rendered entries: raise `TypeError` when int
and str keys are mixed (any two of them would be compared), otherwise sort by
key. -/
def sortEntries (entries : List (PyKey × String)) : Except String (List (PyKey × String)) :=
  if (entries.any fun p => p.1.isInt) && (entries.any fun p => p.1.isStr) then
    .error sortErrMsg
  else
    .ok (isortLE (fun p q => pkeyLE p.1 q.1) entries)

mutual

/-- `json.dumps` under a call-site configuration.  `Except.error` is a raised
exception (the line is never produced). -/
def dumpsV (cfg : DumpCfg) : PyVal → Except String String
  | .pynone => .ok "null"
  | .pybool b => .ok (if b then "true" else "false")
  | .pyint n => .ok (intRepr n)
  | .nan => .ok "NaN"
  | .inf => .ok "Infinity"
  | .ninf => .ok "-Infinity"
  | .pystr s => .ok (escString cfg.ensureAscii s)
  | .pylist xs =>
      match dumpsL cfg xs with
      | .error e => .error e
      | .ok parts => .ok ("[" ++ joinSep cfg.itemSep parts ++ "]")
  | .pydict kvs =>
      match dumpsKVs cfg kvs with
      | .error e => .error e
      | .ok entries =>
          match (if cfg.sortKeys then sortEntries entries else .ok entries) with
          | .error e => .error e
          | .ok sorted =>
              .ok ("\x7b" ++
                joinSep cfg.itemSep
                  (sorted.map fun p => keyRepr cfg.ensureAscii p.1 ++ cfg.kvSep ++ p.2)
                ++ "\x7d")

def dumpsL (cfg : DumpCfg) : List PyVal → Except String (List String)
  | [] => .ok []
  | v :: rest =>
      match dumpsV cfg v with
      | .error e => .error e
      | .ok s =>
        match dumpsL cfg rest with
        | .error e => .error e
        | .ok ss => .ok (s :: ss)

def dumpsKVs (cfg : DumpCfg) : List (PyKey × PyVal) → Except String (List (PyKey × String))
  | [] => .ok []
  | (k, v) :: rest =>
      match dumpsV cfg v with
      | .error e => .error e
      | .ok s =>
        match dumpsKVs cfg rest with
        | .error e => .error e
        | .ok es => .ok ((k, s) :: es)

end

/-- Association lookup on dict entries (first match, as a Python dict with
unique keys has). -/
def lookupKV (k : PyKey) : List (PyKey × PyVal) → Option PyVal
  | [] => none
  | (k2, v) :: rest => if k = k2 then some v else lookupKV k rest

/-- Whether a key list has no duplicates — always true of the key list of a
Python dict. -/
def keysNodup [BEq α] : List α → Bool
  | [] => true
  | k :: rest => !(rest.contains k) && keysNodup rest

mutual

/-- Equality of logical values: `jeqv a b` holds when `a` and `b` are the
same Python value up to the insertion order of dict entries, at every nesting
level.  Dicts must have duplicate-free keys (as Python dicts do), the same
multiset of keys, and `jeqv`-related values at each key. -/
def jeqv : PyVal → PyVal → Bool
  | .pynone, b => match b with | .pynone => true | _ => false
  | .pybool a, b => match b with | .pybool b2 => a == b2 | _ => false
  | .pyint a, b => match b with | .pyint b2 => a == b2 | _ => false
  | .nan, b => match b with | .nan => true | _ => false
  | .inf, b => match b with | .inf => true | _ => false
  | .ninf, b => match b with | .ninf => true | _ => false
  | .pystr a, b => match b with | .pystr b2 => a == b2 | _ => false
  | .pylist xs, b => match b with | .pylist ys => jeqvL xs ys | _ => false
  | .pydict a, b =>
      match b with
      | .pydict b2 =>
          keysNodup (a.map Prod.fst) && keysNodup (b2.map Prod.fst)
          && (a.map Prod.fst).isPerm (b2.map Prod.fst) && jeqvKVs a b2
      | _ => false

def jeqvL : List PyVal → List PyVal → Bool
  | [], ys => ys.isEmpty
  | x :: xs, ys =>
      match ys with
      | y :: ys2 => jeqv x y && jeqvL xs ys2
      | [] => false

def jeqvKVs : List (PyKey × PyVal) → List (PyKey × PyVal) → Bool
  | [], _ => true
  | (k, v) :: rest, b =>
      (match lookupKV k b with
       | none => false
       | some v2 => jeqv v v2) && jeqvKVs rest b

end

/-- Field access on an event dict. -/
def getField (v : PyVal) (k : String) : Option PyVal :=
  match v with
  | .pydict kvs => lookupKV (.kstr k) kvs
  | _ => none

/-! ### TraceWriter (`src/verdict-sdk/python/verdict_sdk/writer.py`)

The filesystem is modelled explicitly: a set of directories (paths as segment
lists) and a map from file paths to their byte contents.  `open(path, "a")`
followed by a single `write` of one line is the appending of that line to the
(possibly absent, then empty) current contents. -/

structure FileSys where
  dirs : List (List String)
  files : List (List String × String)
deriving Repr

/-- All non-empty prefixes of a directory path — what
`path.parent.mkdir(parents=True, exist_ok=True)` guarantees to exist. -/
def prefixesOf (p : List String) : List (List String) :=
  (List.range p.length).map fun i => p.take (i + 1)

def mkdirParents (fs : FileSys) (parent : List String) : FileSys :=
  { fs with dirs := fs.dirs ++ prefixesOf parent }

structure TraceWriter where
  path : List String
deriving Repr

/-- `TraceWriter.__init__`: store the path and create the parent directories. -/
def TraceWriter.init (p : List String) (fs : FileSys) : TraceWriter × FileSys :=
  (⟨p⟩, mkdirParents fs p.dropLast)

def getFileD : List (List String × String) → List String → String
  | [], _ => ""
  | (q, c) :: rest, p => if q = p then c else getFileD rest p

def setFile : List (List String × String) → List String → String → List (List String × String)
  | [], p, c => [(p, c)]
  | (q, c0) :: rest, p, c => if q = p then (p, c) :: rest else (q, c0) :: setFile rest p c

/-- `TraceWriter.write_event`: encode the event with the writer configuration,
then open-append-close one line.  A raised `TypeError` from the encoder
happens before the file is opened, so the filesystem is returned unchanged. -/
def write_event (w : TraceWriter) (fs : FileSys) (event : PyVal) :
    Except String Unit × FileSys :=
  match dumpsV writerCfg event with
  | .error e => (.error e, fs)
  | .ok line =>
      (.ok (),
       { fs with files := setFile fs.files w.path (getFileD fs.files w.path ++ line ++ "\n") })

/-! ### Trace data model (`src/examples/agent-demo-2/agent.py`) -/

/-- The `ToolCall` dataclass.  `tool_args` and `tool_result` are
JSON-decoded / tool-produced dicts with string keys. -/
structure ToolCall where
  tool_name : String
  tool_args : List (String × PyVal)
  tool_result : Option (List (String × PyVal))
  success : Bool
  error : Option String
deriving Repr

/-- The `Step` dataclass; ISO timestamps are modelled as epoch milliseconds. -/
structure Step where
  step_id : String
  span_kind : String
  input : String
  output : Option String
  tool_call : Option ToolCall
  started_at : Nat
  finished_at : Option Nat
  tokens_input : Nat
  tokens_output : Nat
  meta : List (String × PyVal)
deriving Repr

/-- The `Episode` dataclass. -/
structure Episode where
  episode_id : String
  input : String
  output : Option String
  steps : List Step
  started_at : Nat
  finished_at : Option Nat
  total_tokens : Nat
  outcome : String
deriving Repr

/-! ### execute_tool and the agent loop -/

/-- A tool implementation: Python callables that either return a result dict
or raise (`Except.error` carries `str(e)`).  `MOCK_RESPONSES` is a
module-level dict of such callables; it is passed explicitly here. -/
def ToolTable := List (String × (List (String × PyVal) → Except String (List (String × PyVal))))

def lookupTool (name : String) : ToolTable → Option (List (String × PyVal) → Except String (List (String × PyVal)))
  | [] => none
  | (n, f) :: rest => if n = name then some f else lookupTool name rest

/-- `execute_tool` (agent.py lines 168–175): unknown names and raising
implementations are both converted to an `error`-keyed result dict; the
function itself never raises. -/
def execute_tool (table : ToolTable) (name : String) (args : List (String × PyVal)) :
    List (String × PyVal) :=
  match lookupTool name table with
  | none => [("error", .pystr ("Unknown tool: " ++ name))]
  | some impl =>
      match impl args with
      | .ok r => r
      | .error e => [("error", .pystr e)]

/-- Python `"error" not in tool_result` (negated): whether the result dict has
an `error` key. -/
def hasErrorKey (res : List (String × PyVal)) : Bool :=
  res.any fun p => p.1 == "error"

/-- A dict with string keys, as a `PyVal`. -/
def strDict (kvs : List (String × PyVal)) : PyVal :=
  .pydict (kvs.map fun p => (PyKey.kstr p.1, p.2))

def optStr : Option String → PyVal
  | some s => .pystr s
  | none => .pynone

def optDict : Option (List (String × PyVal)) → PyVal
  | some r => strDict r
  | none => .pynone

/-- One entry of `msg.tool_calls`: the call id, the function name and the
(JSON-decoded) arguments.  `run` calls `json.loads` on the argument string;
the decoded value is what matters downstream, so the request carries it
directly (decoded JSON objects always have string keys). -/
structure ToolReq where
  id : String
  name : String
  args : List (String × PyVal)

/-- One `client.chat.completions.create` outcome: either a raised exception
or a message (content, tool calls) with optional usage counts. -/
inductive ChatResult where
  | fail (e : String)
  | ok (content : Option String) (toolCalls : List ToolReq) (usage : Option (Nat × Nat))

/-- An element of the `messages` list: the role dicts built by `run`, or the
SDK message object appended verbatim by `messages.append(msg)` (the latter is
not JSON-serializable; `run` never passes it to `json.dumps`, because at
least one tool-result dict is appended right after it). -/
inductive ChatMessage where
  | dictMsg (v : PyVal)
  | assistantMsg (content : Option String) (toolCalls : List ToolReq)

/-- `json.dumps(messages[-1])` on one messages entry. -/
def dumpMessage : ChatMessage → Except String String
  | .dictMsg v => dumpsV plainCfg v
  | .assistantMsg _ _ => .error "TypeError: Object of type Message is not JSON serializable"

/-- First line of `SYSTEM_PROMPT`.  The system message is never rendered into
any step or event (`messages[-1]` is never the system message), so only its
presence in `messages` matters. -/
def SYSTEM_PROMPT : String := "You are a helpful customer service agent for TechCorp Inc."

/-- The `for tool_call in msg.tool_calls` body of `run`: execute the tool,
append a tool `Step` (1-based index `len(episode.steps)+1`), append the
tool-result message.  Python evaluates `json.dumps(tool_result)` twice (for
`tool_step.output` and for the message content) with identical results; it is
computed once here and used twice. -/
def processToolCalls (table : ToolTable) (epId : String) (now : Nat) :
    List ToolReq → List Step → List ChatMessage →
    Except String (List Step × List ChatMessage)
  | [], steps, messages => .ok (steps, messages)
  | req :: rest, steps, messages =>
      let tool_result := execute_tool table req.name req.args
      match dumpsV plainCfg (.pydict [(.kstr "tool", .pystr req.name),
                                      (.kstr "args", strDict req.args)]) with
      | .error e => .error e
      | .ok inp =>
        match dumpsV plainCfg (strDict tool_result) with
        | .error e => .error e
        | .ok outp =>
          let tool_step : Step :=
            { step_id := mkStepId epId (steps.length + 1), span_kind := "tool",
              input := inp, output := some outp,
              tool_call := some { tool_name := req.name, tool_args := req.args,
                                  tool_result := some tool_result,
                                  success := !(hasErrorKey tool_result), error := none },
              started_at := now, finished_at := some now,
              tokens_input := 0, tokens_output := 0, meta := [] }
          processToolCalls table epId now rest (steps ++ [tool_step])
            (messages ++ [.dictMsg (.pydict [(.kstr "role", .pystr "tool"),
                                             (.kstr "tool_call_id", .pystr req.id),
                                             (.kstr "content", .pystr outp)])])

/-- Result of the `while` loop of `run`: the mutated episode fields plus the
final `iteration` counter and, for auditing the lifecycle, the ordered list
of values assigned to `episode.outcome` (the initial `"pending"` is the
dataclass default, not an assignment). -/
structure LoopOut where
  steps : List Step
  totalTokens : Nat
  output : Option String
  outcome : String
  outcomeLog : List String
  iteration : Nat

/-- The `while iteration < self.max_iterations` loop of `run`, with
`fuel = max_iterations - iteration` and the model client abstracted as
`script : iteration ↦ ChatResult`.  Breaks are modelled by returning; falling
off the end of the loop returns with the episode fields unchanged
(`output = None`, `outcome = "pending"`). -/
def runLoop (table : ToolTable) (script : Nat → ChatResult) (epId : String) (now : Nat) :
    Nat → Nat → List Step → List ChatMessage → Nat → Except String LoopOut
  | 0, iteration, steps, _messages, totalTokens =>
      .ok ⟨steps, totalTokens, none, "pending", [], iteration⟩
  | fuel + 1, iteration, steps, messages, totalTokens =>
      let iter2 := iteration + 1
      match messages.getLast? with
      | none => .error "IndexError: list index out of range"
      | some lastMsg =>
        match dumpMessage lastMsg with
        | .error e => .error e
        | .ok inp =>
          match script iter2 with
          | .fail e =>
              .ok ⟨steps ++ [{ step_id := mkStepId epId (steps.length + 1), span_kind := "llm",
                               input := inp, output := some ("Error: " ++ e), tool_call := none,
                               started_at := now, finished_at := some now,
                               tokens_input := 0, tokens_output := 0, meta := [] }],
                   totalTokens, none, "error", ["error"], iter2⟩
          | .ok content toolCalls usage =>
              let ptok := (usage.map Prod.fst).getD 0
              let ctok := (usage.map Prod.snd).getD 0
              let llm_step : Step :=
                { step_id := mkStepId epId (steps.length + 1), span_kind := "llm",
                  input := inp, output := some (content.getD ""), tool_call := none,
                  started_at := now, finished_at := some now,
                  tokens_input := ptok, tokens_output := ctok, meta := [] }
              let steps2 := steps ++ [llm_step]
              let tok2 := totalTokens + ptok + ctok
              match toolCalls with
              | [] => .ok ⟨steps2, tok2, content, "pass", ["pass"], iter2⟩
              | _ :: _ =>
                match processToolCalls table epId now toolCalls steps2
                        (messages ++ [.assistantMsg content toolCalls]) with
                | .error e => .error e
                | .ok (steps3, messages3) =>
                    runLoop table script epId now fuel iter2 steps3 messages3 tok2

/-- Python `episode_id or f"ep_{uuid4().hex[:12]}"` (`None` and the empty
string are falsy). -/
def epIdOrGen : Option String → String → String
  | some s, genId => if s = "" then "ep_" ++ genId else s
  | none, genId => "ep_" ++ genId

/-- The initial `messages` list of `run`: the system prompt and the user
message. -/
def initMessages (userMessage : String) : List ChatMessage :=
  [.dictMsg (.pydict [(.kstr "role", .pystr "system"), (.kstr "content", .pystr SYSTEM_PROMPT)]),
   .dictMsg (.pydict [(.kstr "role", .pystr "user"), (.kstr "content", .pystr userMessage)])]

/-- `FunctionCallingAgent.run`: build the episode, run the loop, then apply
the post-loop `if iteration >= self.max_iterations` clamp, set `finished_at`
and return.  `genId` stands for the `uuid4().hex[:12]` fragment.  The second
component of the result is the outcome-assignment log (see `LoopOut`). -/
def run (table : ToolTable) (script : Nat → ChatResult) (userMessage : String)
    (episodeId : Option String) (maxIterations : Nat) (now : Nat) (genId : String) :
    Except String (Episode × List String) :=
  let epId := epIdOrGen episodeId genId
  let messages : List ChatMessage := initMessages userMessage
  match runLoop table script epId now maxIterations 0 [] messages 0 with
  | .error e => .error e
  | .ok r =>
      if maxIterations ≤ r.iteration then
        .ok ({ episode_id := epId, input := userMessage,
               output := some ("Max iterations (" ++ ⟨natDigits maxIterations⟩ ++ ") exceeded"),
               steps := r.steps, started_at := now, finished_at := some now,
               total_tokens := r.totalTokens, outcome := "error" },
             r.outcomeLog ++ ["error"])
      else
        .ok ({ episode_id := epId, input := userMessage, output := r.output,
               steps := r.steps, started_at := now, finished_at := some now,
               total_tokens := r.totalTokens, outcome := r.outcome },
             r.outcomeLog)

/-- Episode of a `run` result (for stating concrete evaluations). -/
def runEpisode : Except String (Episode × List String) → Option Episode
  | .ok p => some p.1
  | .error _ => none

def runOutcome : Except String (Episode × List String) → String
  | .ok p => p.1.outcome
  | .error _ => ""

def runOutput : Except String (Episode × List String) → Option String
  | .ok p => p.1.output
  | .error _ => none

def runLog : Except String (Episode × List String) → List String
  | .ok p => p.2
  | .error _ => []

def runStepIds : Except String (Episode × List String) → List String
  | .ok p => p.1.steps.map Step.step_id
  | .error _ => []

/-! ### episode_to_jsonl (agent.py lines 377–460) -/

/-- The wire events contributed by one enumerated step: the `step` event,
followed by a `tool_call` event when the step carries a tool call.  The
`try/except` around `fromisoformat(step.started_at)` always succeeds here
because `started_at` is a valid timestamp by construction. -/
def stepEvents (ep_id : String) (p : Nat × Step) : List PyVal :=
  let step := p.2
  let step_ts : Int := step.started_at
  let step_data : PyVal := .pydict
    [(.kstr "type", .pystr "step"), (.kstr "episode_id", .pystr ep_id),
     (.kstr "step_id", .pystr step.step_id), (.kstr "idx", .pyint p.1),
     (.kstr "timestamp", .pyint step_ts), (.kstr "kind", .pystr "model"),
     (.kstr "name", .pystr "agent"), (.kstr "content", optStr step.output),
     (.kstr "meta", .pydict [])]
  match step.tool_call with
  | none => [step_data]
  | some tc =>
      [step_data,
       .pydict [(.kstr "type", .pystr "tool_call"), (.kstr "episode_id", .pystr ep_id),
                (.kstr "step_id", .pystr step.step_id), (.kstr "timestamp", .pyint (step_ts + 500)),
                (.kstr "tool_name", .pystr tc.tool_name), (.kstr "call_index", .pyint 0),
                (.kstr "args", strDict tc.tool_args),
                (.kstr "result", .pydict [(.kstr "value", optDict tc.tool_result)]),
                (.kstr "error", .pynone)]]

/-- The event dicts appended by `episode_to_jsonl`, in order: `episode_start`,
the per-step events, `episode_end`.  `test_id` replaces the episode id when
truthy.  A missing `finished_at` makes `fromisoformat(None)` raise, taking
the `except` branch `end_ts = start_ts + len(steps) * 2000`. -/
def episode_to_jsonl_events (episode : Episode) (test_id : Option String) : List PyVal :=
  let ep_id := match test_id with
    | some t => if t = "" then episode.episode_id else t
    | none => episode.episode_id
  let start_ts : Int := episode.started_at
  let end_ts : Int := match episode.finished_at with
    | some t => (t : Int)
    | none => start_ts + episode.steps.length * 2000
  (.pydict [(.kstr "type", .pystr "episode_start"), (.kstr "episode_id", .pystr ep_id),
            (.kstr "timestamp", .pyint start_ts),
            (.kstr "input", .pydict [(.kstr "prompt", .pystr episode.input)]),
            (.kstr "meta", .pydict [])]) ::
  (episode.steps.enum.flatMap (stepEvents ep_id)) ++
  [.pydict [(.kstr "type", .pystr "episode_end"), (.kstr "episode_id", .pystr ep_id),
            (.kstr "timestamp", .pyint end_ts), (.kstr "outcome", .pystr episode.outcome),
            (.kstr "final_output", optStr episode.output), (.kstr "meta", .pydict [])]]

/-- `episode_to_jsonl`: each event dict rendered by plain `json.dumps`. -/
def episode_to_jsonl (episode : Episode) (test_id : Option String) :
    Except String (List String) :=
  (episode_to_jsonl_events episode test_id).mapM (dumpsV plainCfg)

/-! ### Auxiliary definitions used by the verification statements -/

/-- Value of a digit string (base 10, `'0'` = 48); inverse of `natDigits`. -/
def valOfDigits (l : List Char) : Nat :=
  l.foldl (fun acc c => 10 * acc + (c.toNat - 48)) 0

/-- A string free of newline characters — one line of a JSONL file. -/
def noNL (s : String) : Prop := '\n' ∉ s.data

/-- The step ids of a step list are exactly the episode id plus the 1-based,
zero-padded position, in order. -/
def stepIdSpec (epId : String) (steps : List Step) : Prop :=
  steps.map Step.step_id = (List.range steps.length).map fun p => mkStepId epId (p + 1)

/-- The `ToolCall` contract realised by `run`: the result dict is recorded,
`success` mirrors the absence of an `error` key, and the `error` field is
never assigned. -/
def ToolCallOK (s : Step) : Prop :=
  ∀ tc, s.tool_call = some tc →
    tc.error = none ∧ ∃ res, tc.tool_result = some res ∧
      (tc.success = true ↔ "error" ∉ res.map Prod.fst)

/-- The spec scenario episode: one `llm` step, then one `tool` step carrying
`ToolCall(tool_name="GetWeather", args=\x7b"location": "Tokyo"\x7d,
result=\x7b"temp_c": 22\x7d)`, outcome `pass`. -/
def scenarioEp : Episode :=
  { episode_id := "e1", input := "Weather?",
    output := some "The weather in Tokyo is 22C.",
    steps :=
      [{ step_id := "e1_step_001", span_kind := "llm", input := "Weather?",
         output := some "Checking weather...", tool_call := none,
         started_at := 1000, finished_at := some 1500,
         tokens_input := 50, tokens_output := 30, meta := [] },
       { step_id := "e1_step_002", span_kind := "tool", input := "GetWeather",
         output := some "22", started_at := 2000, finished_at := some 2500,
         tool_call := some { tool_name := "GetWeather",
                             tool_args := [("location", .pystr "Tokyo")],
                             tool_result := some [("temp_c", .pyint 22)],
                             success := true, error := none },
         tokens_input := 0, tokens_output := 0, meta := [] }],
    started_at := 500, finished_at := some 3000, total_tokens := 80, outcome := "pass" }

/-- The five lines `episode_to_jsonl` emits for `scenarioEp`. -/
def scenarioLines : List String :=
  ["\x7b\"type\": \"episode_start\", \"episode_id\": \"e1\", \"timestamp\": 500, \"input\": \x7b\"prompt\": \"Weather?\"\x7d, \"meta\": \x7b\x7d\x7d",
   "\x7b\"type\": \"step\", \"episode_id\": \"e1\", \"step_id\": \"e1_step_001\", \"idx\": 0, \"timestamp\": 1000, \"kind\": \"model\", \"name\": \"agent\", \"content\": \"Checking weather...\", \"meta\": \x7b\x7d\x7d",
   "\x7b\"type\": \"step\", \"episode_id\": \"e1\", \"step_id\": \"e1_step_002\", \"idx\": 1, \"timestamp\": 2000, \"kind\": \"model\", \"name\": \"agent\", \"content\": \"22\", \"meta\": \x7b\x7d\x7d",
   "\x7b\"type\": \"tool_call\", \"episode_id\": \"e1\", \"step_id\": \"e1_step_002\", \"timestamp\": 2500, \"tool_name\": \"GetWeather\", \"call_index\": 0, \"args\": \x7b\"location\": \"Tokyo\"\x7d, \"result\": \x7b\"value\": \x7b\"temp_c\": 22\x7d\x7d, \"error\": null\x7d",
   "\x7b\"type\": \"episode_end\", \"episode_id\": \"e1\", \"timestamp\": 3000, \"outcome\": \"pass\", \"final_output\": \"The weather in Tokyo is 22C.\", \"meta\": \x7b\x7d\x7d"]

/-- The `step` wire event of the tool step of `scenarioEp`. -/
def scenarioToolStepEvent : PyVal :=
  .pydict [(.kstr "type", .pystr "step"), (.kstr "episode_id", .pystr "e1"),
           (.kstr "step_id", .pystr "e1_step_002"), (.kstr "idx", .pyint 1),
           (.kstr "timestamp", .pyint 2000), (.kstr "kind", .pystr "model"),
           (.kstr "name", .pystr "agent"), (.kstr "content", .pystr "22"),
           (.kstr "meta", .pydict [])]

/-- A client script that always answers with content and no tool calls. -/
def c3script : Nat → ChatResult := fun _ => .ok (some "done") [] none

/-- A client script whose (only) response has no content and no tool calls. -/
def c6script : Nat → ChatResult := fun _ => .ok none [] none

/-- A client script that first requests the unknown tool `Boom`, then
answers. -/
def w5script : Nat → ChatResult := fun i =>
  if i = 1 then .ok none [⟨"cid1", "Boom", []⟩] none else .ok (some "bye") [] none

def wStep1 : Step :=
  { step_id := "e1_step_001", span_kind := "llm",
    input := "\x7b\"role\": \"user\", \"content\": \"hi\"\x7d",
    output := some "", tool_call := none, started_at := 77, finished_at := some 77,
    tokens_input := 0, tokens_output := 0, meta := [] }

def wStep2 : Step :=
  { step_id := "e1_step_002", span_kind := "tool",
    input := "\x7b\"tool\": \"Boom\", \"args\": \x7b\x7d\x7d",
    output := some "\x7b\"error\": \"Unknown tool: Boom\"\x7d",
    tool_call := some { tool_name := "Boom", tool_args := [],
                        tool_result := some [("error", .pystr "Unknown tool: Boom")],
                        success := false, error := none },
    started_at := 77, finished_at := some 77,
    tokens_input := 0, tokens_output := 0, meta := [] }

def wStep3 : Step :=
  { step_id := "e1_step_003", span_kind := "llm",
    input := "\x7b\"role\": \"tool\", \"tool_call_id\": \"cid1\", \"content\": \"\x7b\\\"error\\\": \\\"Unknown tool: Boom\\\"\x7d\"\x7d",
    output := some "bye", tool_call := none, started_at := 77, finished_at := some 77,
    tokens_input := 0, tokens_output := 0, meta := [] }

/-- The episode `run` produces for `w5script` (table empty, `maxIterations`
10, `now` 77). -/
def wEpisode : Episode :=
  { episode_id := "e1", input := "hi", output := some "bye",
    steps := [wStep1, wStep2, wStep3],
    started_at := 77, finished_at := some 77, total_tokens := 0, outcome := "pass" }

/-- The tool request used to build a 1000-step episode: 999 parallel calls of
the unknown tool `T` in a single model turn. -/
def c7req : ToolReq := ⟨"c", "T", []⟩

def c7script : Nat → ChatResult := fun i =>
  if i = 1 then .ok (some "go") (List.replicate 999 c7req) none else .fail "boom"

/-- The tool-result message appended for each `c7req` call. -/
def c7toolMsg : ChatMessage :=
  .dictMsg (.pydict [(.kstr "role", .pystr "tool"), (.kstr "tool_call_id", .pystr "c"),
                     (.kstr "content", .pystr "\x7b\"error\": \"Unknown tool: T\"\x7d")])

/-- The llm step of iteration 1 under `c7script`. -/
def c7llm1 : Step :=
  { step_id := mkStepId "e1" 1, span_kind := "llm",
    input := "\x7b\"role\": \"user\", \"content\": \"hi\"\x7d",
    output := some "go", tool_call := none, started_at := 77, finished_at := some 77,
    tokens_input := 0, tokens_output := 0, meta := [] }

/-- The tool step appended for one `c7req` call when it is the `(k+1)`-st
step of the episode. -/
def c7step (k : Nat) : Step :=
  { step_id := mkStepId "e1" (k + 1), span_kind := "tool",
    input := "\x7b\"tool\": \"T\", \"args\": \x7b\x7d\x7d",
    output := some "\x7b\"error\": \"Unknown tool: T\"\x7d",
    tool_call := some { tool_name := "T", tool_args := [],
                        tool_result := some [("error", .pystr "Unknown tool: T")],
                        success := false, error := none },
    started_at := 77, finished_at := some 77,
    tokens_input := 0, tokens_output := 0, meta := [] }

/-- Events used by the `TraceWriter` claims. -/
def evNaN : PyVal := .pydict [(.kstr "x", .nan)]

def evInf : PyVal := .pydict [(.kstr "y", .inf)]

def evNinf : PyVal := .pydict [(.kstr "z", .ninf)]

def evIntKey : PyVal := .pydict [(.kint 1, .pyint 2)]

def evMixedKeys : PyVal := .pydict [(.kint 1, .pyint 2), (.kstr "a", .pyint 1)]

def evPlain : PyVal := .pydict [(.kstr "a", .pystr "line1")]

def fs0 : FileSys := ⟨[], []⟩

/-- C1 witness pair: the same logical event built with two different
insertion orders at both nesting levels. -/
def c1a : PyVal :=
  .pydict [(.kstr "b", .pyint 1),
           (.kstr "a", .pydict [(.kstr "y", .pystr "é"),
                                (.kstr "x", .pylist [.pyint 2, .pynone])])]

def c1b : PyVal :=
  .pydict [(.kstr "a", .pydict [(.kstr "x", .pylist [.pyint 2, .pynone]),
                                (.kstr "y", .pystr "é")]),
           (.kstr "b", .pyint 1)]

/-! ## Decimal rendering and step-id lemmas -/

theorem natDigitsAux_fuel (n : Nat) : ∀ f1 f2, n < f1 → n < f2 →
    natDigitsAux f1 n = natDigitsAux f2 n := by
  induction n using Nat.strong_induction_on with
  | _ n ih =>
    intro f1 f2 h1 h2
    cases f1 with
    | zero => omega
    | succ f1 =>
      cases f2 with
      | zero => omega
      | succ f2 =>
        simp only [natDigitsAux]
        by_cases h10 : n < 10
        · simp [h10]
        · simp only [h10, if_false]
          rw [ih (n / 10) (Nat.div_lt_self (by omega) (by omega)) f1 f2 (by omega) (by omega)]

theorem natDigits_eq (n : Nat) :
    natDigits n = if n < 10 then [Nat.digitChar n]
                  else natDigits (n / 10) ++ [Nat.digitChar (n % 10)] := by
  have h : natDigits n = if n < 10 then [Nat.digitChar n]
      else natDigitsAux n (n / 10) ++ [Nat.digitChar (n % 10)] := rfl
  rw [h]
  by_cases h10 : n < 10
  · simp [h10]
  · simp only [h10, if_false]
    rw [natDigitsAux_fuel (n / 10) n (n / 10 + 1)
      (Nat.div_lt_self (by omega) (by omega)) (Nat.lt_succ_self _)]
    rfl

theorem digitChar_toNat : ∀ d, d < 10 → (Nat.digitChar d).toNat = 48 + d := by decide

theorem digitChar_lt_digitChar : ∀ e, e < 10 → ∀ d, d < e →
    Nat.digitChar d < Nat.digitChar e := by decide

theorem valOfDigits_append (l : List Char) (c : Char) :
    valOfDigits (l ++ [c]) = 10 * valOfDigits l + (c.toNat - 48) := by
  simp [valOfDigits, List.foldl_append]

theorem valOfDigits_natDigits (n : Nat) : valOfDigits (natDigits n) = n := by
  induction n using Nat.strong_induction_on with
  | _ n ih =>
    rw [natDigits_eq]
    by_cases h10 : n < 10
    · simp only [h10, if_true, valOfDigits, List.foldl_cons, List.foldl_nil]
      have := digitChar_toNat n h10
      omega
    · simp only [h10, if_false]
      rw [valOfDigits_append, ih (n / 10) (Nat.div_lt_self (by omega) (by omega))]
      have := digitChar_toNat (n % 10) (by omega)
      omega

theorem valOfDigits_replicate (k : Nat) (l : List Char) :
    valOfDigits (List.replicate k '0' ++ l) = valOfDigits l := by
  induction k with
  | zero => simp
  | succ k ih =>
    rw [List.replicate_succ, List.cons_append]
    have h0 : ('0' : Char).toNat - 48 = 0 := by decide
    simp only [valOfDigits, List.foldl_cons, h0, Nat.mul_zero, Nat.add_zero] at ih ⊢
    exact ih

theorem pad3_data_inj {a b : Nat} (h : (pad3 a).data = (pad3 b).data) : a = b := by
  have hd : List.replicate (3 - (natDigits a).length) '0' ++ natDigits a
      = List.replicate (3 - (natDigits b).length) '0' ++ natDigits b := h
  have hv := congrArg valOfDigits hd
  rwa [valOfDigits_replicate, valOfDigits_replicate, valOfDigits_natDigits,
    valOfDigits_natDigits] at hv

theorem mkStepId_inj {ep : String} {a b : Nat} (h : mkStepId ep a = mkStepId ep b) :
    a = b := by
  unfold mkStepId at h
  have hd := congrArg String.data h
  simp only [String.data_append] at hd
  exact pad3_data_inj (List.append_cancel_left hd)

theorem natDigits_one_digit {n : Nat} (h : n < 10) :
    natDigits n = [Nat.digitChar n] := by
  rw [natDigits_eq]
  simp [h]

theorem natDigits_two_digits {n : Nat} (h1 : 10 ≤ n) (h2 : n < 100) :
    natDigits n = [Nat.digitChar (n / 10), Nat.digitChar (n % 10)] := by
  rw [natDigits_eq]
  simp only [show ¬ n < 10 by omega, if_false]
  rw [natDigits_one_digit (by omega)]
  rfl

theorem natDigits_three_digits {n : Nat} (h1 : 100 ≤ n) (h2 : n < 1000) :
    natDigits n = [Nat.digitChar (n / 100), Nat.digitChar (n / 10 % 10),
      Nat.digitChar (n % 10)] := by
  rw [natDigits_eq]
  simp only [show ¬ n < 10 by omega, if_false]
  rw [natDigits_two_digits (by omega) (by omega)]
  have h3 : n / 10 / 10 = n / 100 := by omega
  rw [h3]
  rfl

theorem pad3_data_eq {n : Nat} (h : n < 1000) :
    (pad3 n).data = [Nat.digitChar (n / 100), Nat.digitChar (n / 10 % 10),
      Nat.digitChar (n % 10)] := by
  show List.replicate (3 - (natDigits n).length) '0' ++ natDigits n = _
  by_cases h1 : n < 10
  · rw [natDigits_one_digit h1]
    have e1 : n / 100 = 0 := by omega
    have e2 : n / 10 % 10 = 0 := by omega
    have e3 : n % 10 = n := by omega
    rw [e1, e2, e3, show Nat.digitChar 0 = '0' by decide]
    rfl
  · by_cases h2 : n < 100
    · rw [natDigits_two_digits (by omega) h2]
      have e1 : n / 100 = 0 := by omega
      have e2 : n / 10 % 10 = n / 10 := by omega
      rw [e1, e2, show Nat.digitChar 0 = '0' by decide]
      rfl
    · rw [natDigits_three_digits (by omega) h]
      rfl

theorem list_lex_append (l : List Char) {a b : List Char}
    (h : List.Lex (· < ·) a b) : List.Lex (· < ·) (l ++ a) (l ++ b) := by
  induction l with
  | nil => exact h
  | cons c cs ih => exact List.Lex.cons ih

theorem pad3_data_lt {a b : Nat} (hab : a < b) (hb : b < 1000) :
    List.Lex (· < ·) (pad3 a).data (pad3 b).data := by
  rw [pad3_data_eq (by omega), pad3_data_eq hb]
  by_cases h1 : a / 100 < b / 100
  · exact List.Lex.rel (digitChar_lt_digitChar _ (by omega) _ h1)
  · have e1 : a / 100 = b / 100 := by omega
    rw [e1]
    refine List.Lex.cons ?_
    by_cases h2 : a / 10 % 10 < b / 10 % 10
    · exact List.Lex.rel (digitChar_lt_digitChar _ (by omega) _ h2)
    · have e2 : a / 10 % 10 = b / 10 % 10 := by omega
      rw [e2]
      exact List.Lex.cons (List.Lex.rel (digitChar_lt_digitChar _ (by omega) _ (by omega)))

theorem mkStepId_lt (ep : String) {a b : Nat} (hab : a < b) (hb : b ≤ 999) :
    mkStepId ep a < mkStepId ep b := by
  rw [String.lt_iff_toList_lt]
  show List.Lex (· < ·) (mkStepId ep a).data (mkStepId ep b).data
  unfold mkStepId
  simp only [String.data_append]
  exact list_lex_append _ (pad3_data_lt hab (by omega))

/-! ## Claim theorems (part 1) -/

/-- Claim C9: `execute_tool` is total — it always returns a result dict; an
unknown tool name yields the `Unknown tool` error dict, and an exception
raised by the tool implementation is converted into an `error`-keyed dict
with the exception message (a normal return is passed through). -/
theorem execute_tool_total_error_handling :
    ∀ (table : ToolTable) (name : String) (args : List (String × PyVal)),
      (lookupTool name table = none →
        execute_tool table name args = [("error", .pystr ("Unknown tool: " ++ name))]) ∧
      (∀ impl, lookupTool name table = some impl →
        (∀ e, impl args = .error e →
          execute_tool table name args = [("error", .pystr e)]) ∧
        (∀ r, impl args = .ok r → execute_tool table name args = r)) := by
  intro table name args
  refine ⟨fun h => ?_, fun impl h => ⟨fun e he => ?_, fun r hr => ?_⟩⟩
  · simp only [execute_tool, h]
  · simp only [execute_tool, h, he]
  · simp only [execute_tool, h, hr]

theorem execute_tool_total_error_handling_witness :
    execute_tool [] "Boom" [] = [("error", .pystr "Unknown tool: Boom")] :=
  (execute_tool_total_error_handling [] "Boom" []).1 rfl

/-- Claim C3 (code bug): with `max_iterations = 1` and a model response that
has content and no tool calls, `run` assigns `outcome = "pass"` inside the
loop and then the post-loop `iteration >= max_iterations` clamp reassigns it
to `"error"` (also overwriting the final answer with the `Max iterations`
message), so the outcome leaves `pending` twice. -/
theorem run_outcome_reassigned_at_max_iterations :
    runLog (run [] c3script "hi" (some "e1") 1 77 "g") = ["pass", "error"] ∧
    runOutcome (run [] c3script "hi" (some "e1") 1 77 "g") = "error" ∧
    runOutput (run [] c3script "hi" (some "e1") 1 77 "g") =
      some "Max iterations (1) exceeded" :=
  ⟨rfl, rfl, rfl⟩

/-- Claim C4 counterexample: serializing the scenario episode (one `llm`
step, then one `tool` step carrying the `GetWeather` call) yields 5 lines,
not 4 — the tool step contributes a `step` line and a separate `tool_call`
line. -/
theorem episode_to_jsonl_scenario_not_four_lines :
    episode_to_jsonl scenarioEp none = .ok scenarioLines ∧
    scenarioLines.length = 5 ∧ scenarioLines.length ≠ 4 :=
  ⟨rfl, rfl, by decide⟩

/-- Claim C4 (amended): the scenario stream has exactly 5 lines — line 1 of
type `episode_start`, lines 2 and 3 of type `step`, line 4 of type
`tool_call`, and line 5 (the last) of type `episode_end` with outcome
`"pass"`. -/
theorem episode_to_jsonl_scenario_five_events :
    (episode_to_jsonl_events scenarioEp none).length = 5 ∧
    ((episode_to_jsonl_events scenarioEp none).get? 0).bind (fun v => getField v "type")
      = some (.pystr "episode_start") ∧
    ((episode_to_jsonl_events scenarioEp none).get? 1).bind (fun v => getField v "type")
      = some (.pystr "step") ∧
    ((episode_to_jsonl_events scenarioEp none).get? 2).bind (fun v => getField v "type")
      = some (.pystr "step") ∧
    ((episode_to_jsonl_events scenarioEp none).get? 3).bind (fun v => getField v "type")
      = some (.pystr "tool_call") ∧
    ((episode_to_jsonl_events scenarioEp none).get? 4).bind (fun v => getField v "type")
      = some (.pystr "episode_end") ∧
    ((episode_to_jsonl_events scenarioEp none).get? 4).bind (fun v => getField v "outcome")
      = some (.pystr "pass") :=
  ⟨rfl, rfl, rfl, rfl, rfl, rfl, rfl⟩

/-- Claim C2 counterexample: an event containing `NaN` does not make
`write_event` fail — the line `\x7b"x":NaN\x7d` is silently appended. -/
theorem write_event_nan_no_failure :
    (write_event ⟨["t.jsonl"]⟩ fs0 evNaN).1 = .ok () ∧
    getFileD (write_event ⟨["t.jsonl"]⟩ fs0 evNaN).2.files ["t.jsonl"]
      = "\x7b\"x\":NaN\x7d\n" :=
  ⟨rfl, rfl⟩

/-- Claim C2 (amended): the encoder does not fail on non-finite numbers
(`NaN`, `Infinity`, `-Infinity` are emitted as bare literals) nor on integer
dict keys (coerced to decimal strings); it fails only when a dict mixes
integer and string keys under `sort_keys=True`, and on that failure the
destination file is left unchanged (the line is encoded before the file is
opened). -/
theorem write_event_nonfinite_and_intkey_coercion :
    dumpsV writerCfg evNaN = .ok "\x7b\"x\":NaN\x7d" ∧
    dumpsV writerCfg evInf = .ok "\x7b\"y\":Infinity\x7d" ∧
    dumpsV writerCfg evNinf = .ok "\x7b\"z\":-Infinity\x7d" ∧
    dumpsV writerCfg evIntKey = .ok "\x7b\"1\":2\x7d" ∧
    write_event ⟨["m.jsonl"]⟩ fs0 evMixedKeys = (.error sortErrMsg, fs0) :=
  ⟨rfl, rfl, rfl, rfl, rfl⟩

/-- Claim C10: every `step` event emitted by `episode_to_jsonl` carries the
wire field `kind = "model"` — for tool steps as much as for llm steps — and
no `span_kind` field at all; the llm/tool distinction survives only as the
presence of a separate `tool_call` event. -/
theorem episode_events_step_kind_model :
    ∀ (ep : Episode) (tid : Option String) (ev : PyVal),
      ev ∈ episode_to_jsonl_events ep tid →
      getField ev "type" = some (.pystr "step") →
      getField ev "kind" = some (.pystr "model") ∧ getField ev "span_kind" = none := by
  intro ep tid ev hmem htype
  unfold episode_to_jsonl_events at hmem
  rcases List.mem_cons.mp hmem with h | h
  · subst h
    simp [getField, lookupKV] at htype
  · rcases List.mem_append.mp h with h2 | h2
    · rcases List.mem_flatMap.mp h2 with ⟨p, _hp, hev⟩
      simp only [stepEvents] at hev
      cases hc : p.2.tool_call with
      | none =>
          simp only [hc, List.mem_singleton] at hev
          subst hev
          exact ⟨by simp [getField, lookupKV], by simp [getField, lookupKV]⟩
      | some tc =>
          simp only [hc] at hev
          rcases List.mem_cons.mp hev with h3 | h3
          · subst h3
            exact ⟨by simp [getField, lookupKV], by simp [getField, lookupKV]⟩
          · simp only [List.mem_singleton] at h3
            subst h3
            simp [getField, lookupKV] at htype
    · simp only [List.mem_singleton] at h2
      subst h2
      simp [getField, lookupKV] at htype

theorem episode_events_step_kind_model_witness :
    scenarioToolStepEvent ∈ episode_to_jsonl_events scenarioEp none ∧
    getField scenarioToolStepEvent "type" = some (.pystr "step") ∧
    getField scenarioToolStepEvent "kind" = some (.pystr "model") ∧
    getField scenarioToolStepEvent "span_kind" = none := by
  have hmem : scenarioToolStepEvent ∈ episode_to_jsonl_events scenarioEp none :=
    List.get?_mem
      (rfl : (episode_to_jsonl_events scenarioEp none).get? 2 = some scenarioToolStepEvent)
  have h := episode_events_step_kind_model scenarioEp none scenarioToolStepEvent hmem rfl
  exact ⟨hmem, rfl, h.1, h.2⟩

/-! ## Invariants of the agent loop -/

theorem hasErrorKey_iff (res : List (String × PyVal)) :
    hasErrorKey res = true ↔ "error" ∈ res.map Prod.fst := by
  unfold hasErrorKey
  rw [List.any_eq_true]
  constructor
  · rintro ⟨p, hp, he⟩
    exact List.mem_map.mpr ⟨p, hp, eq_of_beq he⟩
  · intro hm
    rcases List.mem_map.mp hm with ⟨p, hp, he⟩
    refine ⟨p, hp, ?_⟩
    rw [he]
    exact beq_self_eq_true "error"

theorem not_hasErrorKey_iff (res : List (String × PyVal)) :
    (!hasErrorKey res) = true ↔ "error" ∉ res.map Prod.fst := by
  rw [Bool.not_eq_true']
  constructor
  · intro h hmem
    rw [← hasErrorKey_iff] at hmem
    rw [h] at hmem
    exact Bool.noConfusion hmem
  · intro h
    cases hek : hasErrorKey res with
    | false => rfl
    | true => exact absurd ((hasErrorKey_iff res).mp hek) h

theorem processToolCalls_toolCallOK (table : ToolTable) (epId : String) (now : Nat) :
    ∀ calls steps msgs steps2 msgs2,
      processToolCalls table epId now calls steps msgs = .ok (steps2, msgs2) →
      (∀ s ∈ steps, ToolCallOK s) → ∀ s ∈ steps2, ToolCallOK s := by
  intro calls
  induction calls with
  | nil =>
      intro steps msgs steps2 msgs2 h hok
      simp only [processToolCalls, Except.ok.injEq, Prod.mk.injEq] at h
      obtain ⟨h1, _⟩ := h
      subst h1
      exact hok
  | cons req rest ih =>
      intro steps msgs steps2 msgs2 h hok
      simp only [processToolCalls] at h
      cases hd1 : dumpsV plainCfg (.pydict [(.kstr "tool", .pystr req.name),
          (.kstr "args", strDict req.args)]) with
      | error e =>
          rw [hd1] at h
          exact Except.noConfusion h
      | ok inp =>
          rw [hd1] at h
          cases hd2 : dumpsV plainCfg (strDict (execute_tool table req.name req.args)) with
          | error e =>
              rw [hd2] at h
              exact Except.noConfusion h
          | ok outp =>
              rw [hd2] at h
              refine ih _ _ _ _ h ?_
              intro s hs
              rcases List.mem_append.mp hs with hs | hs
              · exact hok s hs
              · simp only [List.mem_singleton] at hs
                subst hs
                intro tc htc
                injection htc with htc
                subst htc
                exact ⟨rfl, execute_tool table req.name req.args, rfl,
                  not_hasErrorKey_iff _⟩

theorem runLoop_toolCallOK (table : ToolTable) (script : Nat → ChatResult)
    (epId : String) (now : Nat) :
    ∀ fuel iteration steps msgs tok out,
      runLoop table script epId now fuel iteration steps msgs tok = .ok out →
      (∀ s ∈ steps, ToolCallOK s) → ∀ s ∈ out.steps, ToolCallOK s := by
  intro fuel
  induction fuel with
  | zero =>
      intro it steps msgs tok out h hok
      simp only [runLoop, Except.ok.injEq] at h
      subst h
      exact hok
  | succ fuel ih =>
      intro it steps msgs tok out h hok
      simp only [runLoop] at h
      split at h
      · exact Except.noConfusion h
      · split at h
        · exact Except.noConfusion h
        · split at h
          · simp only [Except.ok.injEq] at h
            subst h
            intro s hmem
            rcases List.mem_append.mp hmem with hm | hm
            · exact hok s hm
            · simp only [List.mem_singleton] at hm
              subst hm
              intro tc htc
              exact Option.noConfusion htc
          · split at h
            · simp only [Except.ok.injEq] at h
              subst h
              intro s hmem
              rcases List.mem_append.mp hmem with hm | hm
              · exact hok s hm
              · simp only [List.mem_singleton] at hm
                subst hm
                intro tc htc
                exact Option.noConfusion htc
            · split at h
              · exact Except.noConfusion h
              · rename_i steps3 messages3 hp
                refine ih _ _ _ _ _ h ?_
                refine processToolCalls_toolCallOK table epId now _ _ _ _ _ hp ?_
                intro s hmem
                rcases List.mem_append.mp hmem with hm | hm
                · exact hok s hm
                · simp only [List.mem_singleton] at hm
                  subst hm
                  intro tc htc
                  exact Option.noConfusion htc

/-- Claim C5 counterexample: a failed tool call (unknown tool `Boom`) is
recorded with `success = false` but `error = none` — the `error` field is not
set even though `success` is false. -/
theorem tool_call_error_field_unset_cex :
    run [] w5script "hi" (some "e1") 10 77 "g" = .ok (wEpisode, ["pass"]) ∧
    wStep2.tool_call = some { tool_name := "Boom", tool_args := [],
                              tool_result := some [("error", .pystr "Unknown tool: Boom")],
                              success := false, error := none } ∧
    (∀ tc, wStep2.tool_call = some tc → tc.success = false ∧ tc.error = none) :=
  ⟨rfl, rfl, fun tc htc => by
    injection htc with htc
    subst htc
    exact ⟨rfl, rfl⟩⟩

/-- Claim C5 (amended): for every `ToolCall` recorded by
`FunctionCallingAgent.run`, `success` is true iff the tool result dict has no
`error` key, the result dict is always recorded, and the `error` field is
never assigned — it stays `None` even when `success` is false. -/
theorem run_tool_call_success_iff_no_error :
    ∀ table script u eid mi now g ep log,
      run table script u eid mi now g = .ok (ep, log) →
      ∀ s, s ∈ ep.steps → ∀ tc, s.tool_call = some tc →
        tc.error = none ∧ ∃ res, tc.tool_result = some res ∧
          (tc.success = true ↔ "error" ∉ res.map Prod.fst) := by
  intro table script u eid mi now g ep log h s hs tc htc
  simp only [run] at h
  split at h
  · exact Except.noConfusion h
  · rename_i r hr
    have hsteps : ep.steps = r.steps := by
      split at h
      · simp only [Except.ok.injEq, Prod.mk.injEq] at h
        rw [← h.1]
      · simp only [Except.ok.injEq, Prod.mk.injEq] at h
        rw [← h.1]
    rw [hsteps] at hs
    exact runLoop_toolCallOK table script _ now mi 0 _ _ _ r hr
      (fun s2 hmem => absurd hmem (List.not_mem_nil s2)) s hs tc htc

theorem run_tool_call_success_iff_no_error_witness :
    wStep2 ∈ wEpisode.steps ∧
    ∀ tc, wStep2.tool_call = some tc →
      tc.error = none ∧ ∃ res, tc.tool_result = some res ∧
        (tc.success = true ↔ "error" ∉ res.map Prod.fst) :=
  ⟨List.mem_cons_of_mem _ (List.mem_cons_self _ _),
   fun tc htc => run_tool_call_success_iff_no_error [] w5script "hi" (some "e1") 10 77 "g"
     wEpisode ["pass"] rfl wStep2
     (List.mem_cons_of_mem _ (List.mem_cons_self _ _)) tc htc⟩

theorem runLoop_outcome (table : ToolTable) (script : Nat → ChatResult)
    (epId : String) (now : Nat) :
    ∀ fuel iteration steps msgs tok out,
      runLoop table script epId now fuel iteration steps msgs tok = .ok out →
      iteration ≤ out.iteration ∧ out.iteration ≤ iteration + fuel ∧
      (out.outcome = "pending" ∨ out.outcome = "pass" ∨ out.outcome = "error") ∧
      (out.outcome = "pending" → out.iteration = iteration + fuel ∧ out.output = none) ∧
      (out.outcome = "error" → out.output = none) ∧
      (out.outcome = "pass" → iteration < out.iteration ∧
        ∃ u2, script out.iteration = .ok out.output [] u2) := by
  intro fuel
  induction fuel with
  | zero =>
      intro it steps msgs tok out h
      simp only [runLoop, Except.ok.injEq] at h
      subst h
      dsimp only
      refine ⟨Nat.le_refl _, by omega, Or.inl rfl, fun _ => ⟨rfl, rfl⟩,
        fun he => absurd he (by decide), fun hp => absurd hp (by decide)⟩
  | succ fuel ih =>
      intro it steps msgs tok out h
      simp only [runLoop] at h
      split at h
      · exact Except.noConfusion h
      · split at h
        · exact Except.noConfusion h
        · split at h
          · simp only [Except.ok.injEq] at h
            subst h
            dsimp only
            refine ⟨by omega, by omega, Or.inr (Or.inr rfl),
              fun hp => absurd hp (by decide), fun _ => rfl,
              fun hp => absurd hp (by decide)⟩
          · rename_i content toolCalls usage hscript
            split at h
            · simp only [Except.ok.injEq] at h
              subst h
              dsimp only
              refine ⟨by omega, by omega, Or.inr (Or.inl rfl),
                fun hp => absurd hp (by decide), fun he => absurd he (by decide),
                fun _ => ⟨by omega, usage, hscript⟩⟩
            · split at h
              · exact Except.noConfusion h
              · obtain ⟨h1, h2, h3, h4, h5, h6⟩ := ih _ _ _ _ _ h
                exact ⟨by omega, by omega, h3,
                  fun hp => ⟨by have := (h4 hp).1; omega, (h4 hp).2⟩, h5,
                  fun hp => ⟨by have := (h6 hp).1; omega, (h6 hp).2⟩⟩

/-- Claim C6 counterexample: a model response with `content = None` and no
tool calls makes `run` return an episode with `outcome = "pass"` but
`output = None` — `episode.output = msg.content` is assigned without the
`or ""` guard used for the step output. -/
theorem run_pass_with_none_output_cex :
    runOutcome (run [] c6script "hi" (some "e1") 10 77 "g") = "pass" ∧
    runOutput (run [] c6script "hi" (some "e1") 10 77 "g") = none :=
  ⟨rfl, rfl⟩

/-- Claim C6 (amended): every episode returned by `run` has non-null
`finished_at` and a non-`pending` outcome; `output` is set except when the
outcome is `"error"` or when the final model message itself had `None`
content (in which case `outcome = "pass"` with `output = None`). -/
theorem run_episode_finished_and_output :
    ∀ table script u eid mi now g ep log,
      run table script u eid mi now g = .ok (ep, log) →
      ep.finished_at = some now ∧ ep.outcome ≠ "pending" ∧
      (ep.output = none → ep.outcome = "error" ∨
        ∃ i u2, 1 ≤ i ∧ i ≤ mi ∧ script i = .ok none [] u2) := by
  intro table script u eid mi now g ep log h
  simp only [run] at h
  split at h
  · exact Except.noConfusion h
  · rename_i r hr
    obtain ⟨h1, h2, h3, h4, h5, h6⟩ := runLoop_outcome table script _ now mi 0 _ _ _ r hr
    split at h
    · rename_i hclamp
      simp only [Except.ok.injEq, Prod.mk.injEq] at h
      obtain ⟨hep, _⟩ := h
      subst hep
      dsimp only
      exact ⟨rfl, by decide, fun hnone => Option.noConfusion hnone⟩
    · rename_i hclamp
      simp only [Except.ok.injEq, Prod.mk.injEq] at h
      obtain ⟨hep, _⟩ := h
      subst hep
      dsimp only
      have hne : r.outcome ≠ "pending" := by
        intro hp
        have := (h4 hp).1
        omega
      refine ⟨rfl, hne, fun hnone => ?_⟩
      rcases h3 with hpend | hpass | herr
      · exact absurd hpend hne
      · obtain ⟨hlt, u2, hscript⟩ := h6 hpass
        rw [hnone] at hscript
        exact Or.inr ⟨r.iteration, u2, by omega, by omega, hscript⟩
      · exact Or.inl herr

theorem run_episode_finished_and_output_witness :
    run [] w5script "hi" (some "e1") 10 77 "g" = .ok (wEpisode, ["pass"]) ∧
    wEpisode.finished_at = some 77 ∧ wEpisode.outcome ≠ "pending" :=
  ⟨rfl,
   (run_episode_finished_and_output [] w5script "hi" (some "e1") 10 77 "g"
     wEpisode ["pass"] rfl).1,
   (run_episode_finished_and_output [] w5script "hi" (some "e1") 10 77 "g"
     wEpisode ["pass"] rfl).2.1⟩

theorem stepIdSpec_nil (epId : String) : stepIdSpec epId [] := by
  simp [stepIdSpec]

theorem stepIdSpec_append {epId : String} {steps : List Step}
    (hspec : stepIdSpec epId steps) {s : Step}
    (hid : s.step_id = mkStepId epId (steps.length + 1)) :
    stepIdSpec epId (steps ++ [s]) := by
  unfold stepIdSpec at *
  rw [List.map_append, List.length_append, List.length_singleton, List.range_succ,
    List.map_append, hspec]
  simp [hid]

theorem processToolCalls_stepIdSpec (table : ToolTable) (epId : String) (now : Nat) :
    ∀ calls steps msgs steps2 msgs2,
      processToolCalls table epId now calls steps msgs = .ok (steps2, msgs2) →
      stepIdSpec epId steps → stepIdSpec epId steps2 := by
  intro calls
  induction calls with
  | nil =>
      intro steps msgs steps2 msgs2 h hspec
      simp only [processToolCalls, Except.ok.injEq, Prod.mk.injEq] at h
      obtain ⟨h1, _⟩ := h
      subst h1
      exact hspec
  | cons req rest ih =>
      intro steps msgs steps2 msgs2 h hspec
      simp only [processToolCalls] at h
      split at h
      · exact Except.noConfusion h
      · split at h
        · exact Except.noConfusion h
        · exact ih _ _ _ _ h (stepIdSpec_append hspec rfl)

theorem runLoop_stepIdSpec (table : ToolTable) (script : Nat → ChatResult)
    (epId : String) (now : Nat) :
    ∀ fuel iteration steps msgs tok out,
      runLoop table script epId now fuel iteration steps msgs tok = .ok out →
      stepIdSpec epId steps → stepIdSpec epId out.steps := by
  intro fuel
  induction fuel with
  | zero =>
      intro it steps msgs tok out h hspec
      simp only [runLoop, Except.ok.injEq] at h
      subst h
      exact hspec
  | succ fuel ih =>
      intro it steps msgs tok out h hspec
      simp only [runLoop] at h
      split at h
      · exact Except.noConfusion h
      · split at h
        · exact Except.noConfusion h
        · split at h
          · simp only [Except.ok.injEq] at h
            subst h
            exact stepIdSpec_append hspec rfl
          · split at h
            · simp only [Except.ok.injEq] at h
              subst h
              exact stepIdSpec_append hspec rfl
            · split at h
              · exact Except.noConfusion h
              · rename_i steps3 messages3 hp
                exact ih _ _ _ _ _ h
                  (processToolCalls_stepIdSpec table epId now _ _ _ _ _ hp
                    (stepIdSpec_append hspec rfl))

theorem run_stepIdSpec :
    ∀ table script u eid mi now g ep log,
      run table script u eid mi now g = .ok (ep, log) →
      stepIdSpec ep.episode_id ep.steps := by
  intro table script u eid mi now g ep log h
  simp only [run] at h
  split at h
  · exact Except.noConfusion h
  · rename_i r hr
    have hs := runLoop_stepIdSpec table script _ now mi 0 _ _ _ r hr (stepIdSpec_nil _)
    split at h
    · simp only [Except.ok.injEq, Prod.mk.injEq] at h
      obtain ⟨hep, _⟩ := h
      subst hep
      exact hs
    · simp only [Except.ok.injEq, Prod.mk.injEq] at h
      obtain ⟨hep, _⟩ := h
      subst hep
      exact hs

/-- Claim C7 (amended): every step id built by `run` is the episode id plus
the 1-based position zero-padded to width 3, and step ids are always unique
within the episode; they sort lexicographically in execution order provided
the episode has at most 999 steps (from the 1000th step on, `%03d` widens to
4 digits and `"..._1000" < "..._999"` lexicographically). -/
theorem run_step_ids_unique_sorted :
    ∀ table script u eid mi now g ep log,
      run table script u eid mi now g = .ok (ep, log) →
      (ep.steps.map Step.step_id
        = (List.range ep.steps.length).map fun p => mkStepId ep.episode_id (p + 1)) ∧
      (ep.steps.map Step.step_id).Nodup ∧
      (ep.steps.length ≤ 999 → (ep.steps.map Step.step_id).Pairwise (· < ·)) := by
  intro table script u eid mi now g ep log h
  have hspec := run_stepIdSpec table script u eid mi now g ep log h
  unfold stepIdSpec at hspec
  refine ⟨hspec, ?_, ?_⟩
  · rw [hspec]
    refine List.Nodup.map_on ?_ (List.nodup_range _)
    intro x _ y _ hxy
    have := mkStepId_inj hxy
    omega
  · intro hlen
    rw [hspec, List.pairwise_map]
    refine List.Pairwise.imp_of_mem ?_ (List.pairwise_lt_range _)
    intro a b _ hb hab
    have hb2 : b < ep.steps.length := List.mem_range.mp hb
    exact mkStepId_lt _ (by omega) (by omega)

theorem run_step_ids_unique_sorted_witness :
    run [] w5script "hi" (some "e1") 10 77 "g" = .ok (wEpisode, ["pass"]) ∧
    (wEpisode.steps.map Step.step_id).Nodup ∧
    (wEpisode.steps.map Step.step_id).Pairwise (· < ·) :=
  ⟨rfl,
   (run_step_ids_unique_sorted [] w5script "hi" (some "e1") 10 77 "g"
     wEpisode ["pass"] rfl).2.1,
   (run_step_ids_unique_sorted [] w5script "hi" (some "e1") 10 77 "g"
     wEpisode ["pass"] rfl).2.2 (by decide)⟩

theorem processToolCalls_T_cons (rest : List ToolReq) (steps : List Step)
    (msgs : List ChatMessage) :
    processToolCalls [] "e1" 77 (c7req :: rest) steps msgs
      = processToolCalls [] "e1" 77 rest (steps ++ [c7step steps.length])
          (msgs ++ [c7toolMsg]) := rfl

theorem processToolCalls_T (n : Nat) :
    ∀ steps msgs, ∃ steps2 msgs2,
      processToolCalls [] "e1" 77 (List.replicate n c7req) steps msgs
        = .ok (steps2, msgs2) ∧
      steps2.length = steps.length + n ∧
      (1 ≤ n → msgs2.getLast? = some c7toolMsg) ∧
      (n = 0 → msgs2 = msgs) := by
  induction n with
  | zero =>
      intro steps msgs
      exact ⟨steps, msgs, rfl, by simp, by omega, fun _ => rfl⟩
  | succ n ih =>
      intro steps msgs
      rw [List.replicate_succ, processToolCalls_T_cons]
      obtain ⟨s2, m2, hok, hlen, hlast, hm0⟩ :=
        ih (steps ++ [c7step steps.length]) (msgs ++ [c7toolMsg])
      refine ⟨s2, m2, hok, by simp at hlen ⊢; omega, fun _ => ?_, by omega⟩
      cases n with
      | zero =>
          rw [hm0 rfl]
          exact List.getLast?_concat _
      | succ n2 => exact hlast (by omega)

theorem runLoop_cons_toolcalls (table : ToolTable) (script : Nat → ChatResult)
    (epId : String) (now fuel it : Nat) (steps : List Step) (msgs : List ChatMessage)
    (tok : Nat) (lastMsg : ChatMessage) (inp : String) (content : Option String)
    (c : ToolReq) (cs : List ToolReq) (usage : Option (Nat × Nat))
    (s3 : List Step) (m3 : List ChatMessage)
    (h1 : msgs.getLast? = some lastMsg)
    (h2 : dumpMessage lastMsg = .ok inp)
    (h3 : script (it + 1) = .ok content (c :: cs) usage)
    (h4 : processToolCalls table epId now (c :: cs)
        (steps ++ [{ step_id := mkStepId epId (steps.length + 1), span_kind := "llm",
                     input := inp, output := some (content.getD ""), tool_call := none,
                     started_at := now, finished_at := some now,
                     tokens_input := (usage.map Prod.fst).getD 0,
                     tokens_output := (usage.map Prod.snd).getD 0, meta := [] }])
        (msgs ++ [.assistantMsg content (c :: cs)]) = .ok (s3, m3)) :
    runLoop table script epId now (fuel + 1) it steps msgs tok
      = runLoop table script epId now fuel (it + 1) s3 m3
          (tok + (usage.map Prod.fst).getD 0 + (usage.map Prod.snd).getD 0) := by
  simp only [runLoop, h1, h2, h3, h4]

theorem runLoop_fail_iter (table : ToolTable) (script : Nat → ChatResult)
    (epId : String) (now fuel it : Nat) (steps : List Step) (msgs : List ChatMessage)
    (tok : Nat) (lastMsg : ChatMessage) (inp e : String)
    (h1 : msgs.getLast? = some lastMsg)
    (h2 : dumpMessage lastMsg = .ok inp)
    (h3 : script (it + 1) = .fail e) :
    runLoop table script epId now (fuel + 1) it steps msgs tok
      = .ok ⟨steps ++ [{ step_id := mkStepId epId (steps.length + 1), span_kind := "llm",
                         input := inp, output := some ("Error: " ++ e), tool_call := none,
                         started_at := now, finished_at := some now, tokens_input := 0,
                         tokens_output := 0, meta := [] }],
             tok, none, "error", ["error"], it + 1⟩ := by
  simp only [runLoop, h1, h2, h3]

theorem run_ok_noclamp (table : ToolTable) (script : Nat → ChatResult)
    (u : String) (eid : Option String) (mi now : Nat) (g : String) (r : LoopOut)
    (h : runLoop table script (epIdOrGen eid g) now mi 0 [] (initMessages u) 0 = .ok r)
    (hn : ¬ mi ≤ r.iteration) :
    run table script u eid mi now g
      = .ok ({ episode_id := epIdOrGen eid g, input := u, output := r.output,
               steps := r.steps, started_at := now, finished_at := some now,
               total_tokens := r.totalTokens, outcome := r.outcome }, r.outcomeLog) := by
  simp only [run, h, if_neg hn]

theorem run_c7_eval :
    ∃ ep log, run [] c7script "hi" (some "e1") 5 77 "g" = .ok (ep, log) ∧
      ep.steps.length = 1001 ∧ ep.episode_id = "e1" := by
  obtain ⟨s2, m2, hok, hlen, hlast, _⟩ := processToolCalls_T 999 [c7llm1]
      (initMessages "hi" ++ [ChatMessage.assistantMsg (some "go") (List.replicate 999 c7req)])
  have hlast2 := hlast (by omega)
  have hA : runLoop [] c7script "e1" 77 (4 + 1) 0 [] (initMessages "hi") 0
      = runLoop [] c7script "e1" 77 4 (0 + 1) s2 m2
          (0 + ((none : Option (Nat × Nat)).map Prod.fst).getD 0
             + ((none : Option (Nat × Nat)).map Prod.snd).getD 0) :=
    runLoop_cons_toolcalls [] c7script "e1" 77 4 0 [] (initMessages "hi") 0
      (.dictMsg (.pydict [(.kstr "role", .pystr "user"), (.kstr "content", .pystr "hi")]))
      "\x7b\"role\": \"user\", \"content\": \"hi\"\x7d" (some "go")
      c7req (List.replicate 998 c7req) none s2 m2 rfl rfl rfl hok
  have hB : runLoop [] c7script "e1" 77 4 (0 + 1) s2 m2
      (0 + ((none : Option (Nat × Nat)).map Prod.fst).getD 0
         + ((none : Option (Nat × Nat)).map Prod.snd).getD 0)
      = .ok ⟨s2 ++ [{ step_id := mkStepId "e1" (s2.length + 1), span_kind := "llm",
                      input := "\x7b\"role\": \"tool\", \"tool_call_id\": \"c\", \"content\": \"\x7b\\\"error\\\": \\\"Unknown tool: T\\\"\x7d\"\x7d",
                      output := some ("Error: " ++ "boom"), tool_call := none,
                      started_at := 77, finished_at := some 77, tokens_input := 0,
                      tokens_output := 0, meta := [] }],
             0, none, "error", ["error"], 1 + 1⟩ :=
    runLoop_fail_iter [] c7script "e1" 77 3 1 s2 m2 0 c7toolMsg
      "\x7b\"role\": \"tool\", \"tool_call_id\": \"c\", \"content\": \"\x7b\\\"error\\\": \\\"Unknown tool: T\\\"\x7d\"\x7d"
      "boom" hlast2 rfl rfl
  have hAB := hA.trans hB
  have hrun := run_ok_noclamp [] c7script "hi" (some "e1") 5 77 "g" _ hAB
    (by show ¬ (5 : Nat) ≤ 1 + 1; omega)
  refine ⟨_, _, hrun, ?_, rfl⟩
  show (s2 ++ [_]).length = 1001
  simp at hlen ⊢
  omega

/-- Claim C7 counterexample: an episode with 1001 steps (one model turn
requesting 999 parallel tool calls, then a failing model call) has step ids
`e1_step_999` at position 998 and `e1_step_1000` at position 999, and
`"e1_step_999" < "e1_step_1000"` is false in lexicographic string order —
later steps no longer sort after earlier ones once `%03d` overflows three
digits. -/
theorem run_step_ids_not_lex_sorted_cex :
    (runStepIds (run [] c7script "hi" (some "e1") 5 77 "g")).get? 998
      = some "e1_step_999" ∧
    (runStepIds (run [] c7script "hi" (some "e1") 5 77 "g")).get? 999
      = some "e1_step_1000" ∧
    ¬ (("e1_step_999" : String) < "e1_step_1000") := by
  obtain ⟨ep, log, hrun, hlen, hid⟩ := run_c7_eval
  have hspec := run_stepIdSpec [] c7script "hi" (some "e1") 5 77 "g" ep log hrun
  unfold stepIdSpec at hspec
  have hids : runStepIds (run [] c7script "hi" (some "e1") 5 77 "g")
      = (List.range 1001).map fun p => mkStepId "e1" (p + 1) := by
    rw [hrun]
    show ep.steps.map Step.step_id = _
    rw [hspec, hid, hlen]
  rw [hids]
  refine ⟨?_, ?_, ?_⟩
  · rw [List.get?_map, List.get?_range (by omega)]
    rfl
  · rw [List.get?_map, List.get?_range (by omega)]
    rfl
  · rw [String.lt_iff_toList_lt]
    decide

/-! ## Newline-freedom of the writer encoder, and append-only file semantics -/

theorem mem_insertLE {le : α → α → Bool} {a x : α} :
    ∀ {l : List α}, x ∈ insertLE le a l → x = a ∨ x ∈ l := by
  intro l
  induction l with
  | nil =>
      intro h
      simp only [insertLE, List.mem_singleton] at h
      exact Or.inl h
  | cons b bs ih =>
      intro h
      simp only [insertLE] at h
      split at h
      · rcases List.mem_cons.mp h with h2 | h2
        · exact Or.inl h2
        · exact Or.inr h2
      · rcases List.mem_cons.mp h with h2 | h2
        · exact Or.inr (List.mem_cons.mpr (Or.inl h2))
        · rcases ih h2 with h3 | h3
          · exact Or.inl h3
          · exact Or.inr (List.mem_cons.mpr (Or.inr h3))

theorem mem_isortLE {le : α → α → Bool} {x : α} :
    ∀ {l : List α}, x ∈ isortLE le l → x ∈ l := by
  intro l
  induction l with
  | nil =>
      intro h
      exact absurd h (List.not_mem_nil x)
  | cons b bs ih =>
      intro h
      simp only [isortLE] at h
      rcases mem_insertLE h with h2 | h2
      · exact h2 ▸ List.mem_cons_self b bs
      · exact List.mem_cons.mpr (Or.inr (ih h2))

theorem sortEntries_mem {entries sorted : List (PyKey × String)} {x : PyKey × String}
    (h : sortEntries entries = .ok sorted) (hx : x ∈ sorted) : x ∈ entries := by
  unfold sortEntries at h
  split at h
  · exact Except.noConfusion h
  · simp only [Except.ok.injEq] at h
    subst h
    exact mem_isortLE hx

theorem dumpsL_mem (cfg : DumpCfg) :
    ∀ xs parts, dumpsL cfg xs = .ok parts →
      ∀ p ∈ parts, ∃ v, v ∈ xs ∧ dumpsV cfg v = .ok p := by
  intro xs
  induction xs with
  | nil =>
      intro parts h p hp
      simp only [dumpsL, Except.ok.injEq] at h
      subst h
      exact absurd hp (List.not_mem_nil p)
  | cons v rest ih =>
      intro parts h p hp
      simp only [dumpsL] at h
      split at h
      · exact Except.noConfusion h
      · rename_i s hs
        split at h
        · exact Except.noConfusion h
        · rename_i ss hss
          simp only [Except.ok.injEq] at h
          subst h
          rcases List.mem_cons.mp hp with h2 | h2
          · exact ⟨v, List.mem_cons_self _ _, h2 ▸ hs⟩
          · obtain ⟨v2, hv2, hd⟩ := ih _ hss p h2
            exact ⟨v2, List.mem_cons.mpr (Or.inr hv2), hd⟩

theorem dumpsKVs_mem (cfg : DumpCfg) :
    ∀ kvs entries, dumpsKVs cfg kvs = .ok entries →
      ∀ p ∈ entries, ∃ v, (p.1, v) ∈ kvs ∧ dumpsV cfg v = .ok p.2 := by
  intro kvs
  induction kvs with
  | nil =>
      intro entries h p hp
      simp only [dumpsKVs, Except.ok.injEq] at h
      subst h
      exact absurd hp (List.not_mem_nil p)
  | cons kv rest ih =>
      intro entries h p hp
      obtain ⟨k, v⟩ := kv
      simp only [dumpsKVs] at h
      split at h
      · exact Except.noConfusion h
      · rename_i s hs
        split at h
        · exact Except.noConfusion h
        · rename_i es hes
          simp only [Except.ok.injEq] at h
          subst h
          rcases List.mem_cons.mp hp with h2 | h2
          · subst h2
            exact ⟨v, List.mem_cons_self _ _, hs⟩
          · obtain ⟨v2, hv2, hd⟩ := ih _ hes p h2
            exact ⟨v2, List.mem_cons.mpr (Or.inr hv2), hd⟩

theorem digitChar_ne_newline : ∀ d, d < 16 → Nat.digitChar d ≠ '\n' := by decide

theorem natDigits_ne_newline (n : Nat) : ∀ c ∈ natDigits n, c ≠ '\n' := by
  induction n using Nat.strong_induction_on with
  | _ n ih =>
    intro c hc
    rw [natDigits_eq] at hc
    by_cases h10 : n < 10
    · simp only [h10, if_true, List.mem_singleton] at hc
      subst hc
      exact digitChar_ne_newline n (by omega)
    · simp only [h10, if_false] at hc
      rcases List.mem_append.mp hc with h2 | h2
      · exact ih (n / 10) (Nat.div_lt_self (by omega) (by omega)) c h2
      · simp only [List.mem_singleton] at h2
        subst h2
        exact digitChar_ne_newline _ (by omega)

theorem noNL_mk {l : List Char} (h : ∀ c ∈ l, c ≠ '\n') : noNL ⟨l⟩ := by
  intro hmem
  exact absurd rfl (h _ hmem)

theorem noNL_append {a b : String} (ha : noNL a) (hb : noNL b) : noNL (a ++ b) := by
  unfold noNL at *
  rw [String.data_append]
  intro h
  rcases List.mem_append.mp h with h2 | h2
  · exact ha h2
  · exact hb h2

theorem intRepr_noNL (n : Int) : noNL (intRepr n) := by
  cases n with
  | ofNat m => exact noNL_mk (natDigits_ne_newline m)
  | negSucc m =>
      exact noNL_append (noNL_mk (by decide)) (noNL_mk (natDigits_ne_newline (m + 1)))

theorem hex4_ne_newline (n : Nat) : ∀ c ∈ hex4 n, c ≠ '\n' := by
  intro c hc
  unfold hex4 at hc
  have h16 : ∀ m : Nat, m % 16 < 16 := fun m => Nat.mod_lt m (by omega)
  simp only [List.mem_cons, List.mem_singleton, List.not_mem_nil, or_false] at hc
  rcases hc with hc | hc | hc | hc <;>
    (subst hc; exact digitChar_ne_newline _ (h16 _))

theorem escHexList_ne_newline (v : Nat) : ∀ x ∈ '\\' :: 'u' :: hex4 v, x ≠ '\n' := by
  intro x hx
  rcases List.mem_cons.mp hx with h | hx
  · subst h
    decide
  · rcases List.mem_cons.mp hx with h | hx
    · subst h
      decide
    · exact hex4_ne_newline v x hx

theorem escChar_ne_newline (ea : Bool) (c : Char) : ∀ x ∈ escChar ea c, x ≠ '\n' := by
  intro x hx
  unfold escChar at hx
  repeat' split at hx
  all_goals
    first
      | (rcases List.mem_append.mp hx with hx | hx <;> exact escHexList_ne_newline _ x hx)
      | exact escHexList_ne_newline _ x hx
      | (rw [List.mem_singleton] at hx; subst hx; assumption)
      | (simp only [List.mem_cons, List.mem_singleton, List.not_mem_nil, or_false] at hx;
         rcases hx with hx | hx <;> (subst hx; decide))

theorem escString_noNL (ea : Bool) (s : String) : noNL (escString ea s) := by
  unfold escString
  refine noNL_append (noNL_append (noNL_mk (by decide)) ?_) (noNL_mk (by decide))
  refine noNL_mk ?_
  intro c hc
  rcases List.mem_flatten.mp hc with ⟨l, hl, hcl⟩
  rcases List.mem_map.mp hl with ⟨c2, _, hmap⟩
  subst hmap
  exact escChar_ne_newline ea c2 c hcl

theorem keyRepr_noNL (ea : Bool) (k : PyKey) : noNL (keyRepr ea k) := by
  cases k with
  | kstr s => exact escString_noNL ea s
  | kint n =>
      exact noNL_append (noNL_append (noNL_mk (by decide)) (intRepr_noNL n))
        (noNL_mk (by decide))

theorem joinSep_noNL {sep : String} (hsep : noNL sep) :
    ∀ parts, (∀ p ∈ parts, noNL p) → noNL (joinSep sep parts) := by
  intro parts
  induction parts with
  | nil =>
      intro _
      exact noNL_mk (by decide)
  | cons p rest ih =>
      intro hall
      cases rest with
      | nil =>
          exact hall p (List.mem_cons_self _ _)
      | cons q qs =>
          show noNL (p ++ sep ++ joinSep sep (q :: qs))
          refine noNL_append (noNL_append (hall p (List.mem_cons_self _ _)) hsep) ?_
          exact ih fun r hr => hall r (List.mem_cons.mpr (Or.inr hr))

theorem dumpsV_writer_noNL : ∀ n v s, sizeOf v ≤ n →
    dumpsV writerCfg v = .ok s → noNL s := by
  intro n
  induction n using Nat.strong_induction_on with
  | _ n ih =>
    intro v s hsize h
    cases v with
    | pynone =>
        simp only [dumpsV, Except.ok.injEq] at h
        subst h
        exact noNL_mk (by decide)
    | pybool b =>
        simp only [dumpsV, Except.ok.injEq] at h
        subst h
        cases b <;> exact noNL_mk (by decide)
    | pyint m =>
        simp only [dumpsV, Except.ok.injEq] at h
        subst h
        exact intRepr_noNL m
    | nan =>
        simp only [dumpsV, Except.ok.injEq] at h
        subst h
        exact noNL_mk (by decide)
    | inf =>
        simp only [dumpsV, Except.ok.injEq] at h
        subst h
        exact noNL_mk (by decide)
    | ninf =>
        simp only [dumpsV, Except.ok.injEq] at h
        subst h
        exact noNL_mk (by decide)
    | pystr str =>
        simp only [dumpsV, Except.ok.injEq] at h
        subst h
        exact escString_noNL _ str
    | pylist xs =>
        simp only [dumpsV] at h
        split at h
        · exact Except.noConfusion h
        · rename_i parts hparts
          simp only [Except.ok.injEq] at h
          subst h
          refine noNL_append (noNL_append (noNL_mk (by decide)) ?_) (noNL_mk (by decide))
          refine joinSep_noNL (noNL_mk (by decide)) parts ?_
          intro p hp
          obtain ⟨v2, hv2, hd⟩ := dumpsL_mem writerCfg xs parts hparts p hp
          have hsz : sizeOf v2 < sizeOf (PyVal.pylist xs) := by
            have := List.sizeOf_lt_of_mem hv2
            simp only [PyVal.pylist.sizeOf_spec]
            omega
          exact ih (sizeOf v2) (by omega) v2 p (Nat.le_refl _) hd
    | pydict kvs =>
        simp only [dumpsV] at h
        split at h
        · exact Except.noConfusion h
        · rename_i entries hentries
          split at h
          · exact Except.noConfusion h
          · rename_i sorted hsorted
            simp only [Except.ok.injEq] at h
            subst h
            refine noNL_append (noNL_append (noNL_mk (by decide)) ?_) (noNL_mk (by decide))
            refine joinSep_noNL (noNL_mk (by decide)) _ ?_
            intro p hp
            rcases List.mem_map.mp hp with ⟨q, hq, hmap⟩
            subst hmap
            have hq2 : q ∈ entries := sortEntries_mem hsorted hq
            obtain ⟨v2, hv2, hd⟩ := dumpsKVs_mem writerCfg kvs entries hentries q hq2
            have hsz : sizeOf v2 < sizeOf (PyVal.pydict kvs) := by
              have h1 := List.sizeOf_lt_of_mem hv2
              simp only [PyVal.pydict.sizeOf_spec] at *
              simp only [Prod.mk.sizeOf_spec] at h1
              omega
            refine noNL_append (noNL_append (keyRepr_noNL _ _) (noNL_mk (by decide))) ?_
            exact ih (sizeOf v2) (by omega) v2 q.2 (Nat.le_refl _) hd

theorem getFileD_setFile_same : ∀ files p c, getFileD (setFile files p c) p = c := by
  intro files
  induction files with
  | nil =>
      intro p c
      simp [setFile, getFileD]
  | cons qc rest ih =>
      intro p c
      obtain ⟨q, c0⟩ := qc
      simp only [setFile]
      split
      · simp [getFileD]
      · rename_i hne
        simp only [getFileD, hne, if_false]
        exact ih p c

theorem getFileD_setFile_ne : ∀ files p c q, q ≠ p →
    getFileD (setFile files p c) q = getFileD files q := by
  intro files
  induction files with
  | nil =>
      intro p c q hne
      simp only [setFile, getFileD]
      rw [if_neg (by intro h; exact hne h.symm)]
  | cons rc rest ih =>
      intro p c q hne
      obtain ⟨r, c0⟩ := rc
      simp only [setFile]
      split
      · rename_i he
        subst he
        simp only [getFileD]
        rw [if_neg (by intro h; exact hne h.symm), if_neg (by intro h; exact hne h.symm)]
      · simp only [getFileD]
        split
        · rfl
        · exact ih p c q hne

/-- Claim C8: constructing a `TraceWriter` creates the destination's parent
directories (every ancestor of the parent) and touches no file; every
successful `write_event` appends exactly `line ++ "\n"` to the destination —
the previous contents stay as an unchanged byte-for-byte preamble, the
appended line contains no newline (so the call writes exactly one full line
terminated by a single newline), and no other file changes; a failing encode
leaves the filesystem untouched. -/
theorem trace_writer_append_only :
    (∀ p fs, (TraceWriter.init p fs).1.path = p ∧
       (∀ q, q ∈ prefixesOf p.dropLast → q ∈ (TraceWriter.init p fs).2.dirs) ∧
       (TraceWriter.init p fs).2.files = fs.files) ∧
    (∀ w fs ev line, dumpsV writerCfg ev = .ok line →
       (write_event w fs ev).1 = .ok () ∧
       getFileD (write_event w fs ev).2.files w.path
         = getFileD fs.files w.path ++ line ++ "\n" ∧
       noNL line ∧
       (∀ q, q ≠ w.path → getFileD (write_event w fs ev).2.files q = getFileD fs.files q)) ∧
    (∀ w fs ev e, dumpsV writerCfg ev = .error e → write_event w fs ev = (.error e, fs)) := by
  refine ⟨fun p fs => ⟨rfl, fun q hq => ?_, rfl⟩, fun w fs ev line h => ?_, fun w fs ev e h => ?_⟩
  · exact List.mem_append.mpr (Or.inr hq)
  · refine ⟨?_, ?_, ?_, ?_⟩
    · simp only [write_event, h]
    · simp only [write_event, h]
      exact getFileD_setFile_same _ _ _
    · exact dumpsV_writer_noNL (sizeOf ev) ev line (Nat.le_refl _) h
    · intro q hq
      simp only [write_event, h]
      exact getFileD_setFile_ne _ _ _ _ hq
  · simp only [write_event, h]

theorem trace_writer_append_only_witness :
    ["traces"] ∈ (TraceWriter.init ["traces", "latest.jsonl"] fs0).2.dirs ∧
    getFileD (write_event ⟨["t.jsonl"]⟩ fs0 evPlain).2.files ["t.jsonl"]
      = "" ++ "\x7b\"a\":\"line1\"\x7d" ++ "\n" ∧
    noNL "\x7b\"a\":\"line1\"\x7d" :=
  ⟨(trace_writer_append_only.1 ["traces", "latest.jsonl"] fs0).2.1 ["traces"] (by decide),
   (trace_writer_append_only.2.1 ⟨["t.jsonl"]⟩ fs0 evPlain "\x7b\"a\":\"line1\"\x7d" rfl).2.1,
   (trace_writer_append_only.2.1 ⟨["t.jsonl"]⟩ fs0 evPlain "\x7b\"a\":\"line1\"\x7d" rfl).2.2.1⟩

/-! ## Determinism of the writer encoder under dict-entry reordering -/

theorem contains_true_of_mem [BEq α] [LawfulBEq α] {l : List α} {a : α} (h : a ∈ l) :
    l.contains a = true := List.elem_iff.mpr h

theorem mem_of_contains_true [BEq α] [LawfulBEq α] {l : List α} {a : α}
    (h : l.contains a = true) : a ∈ l := List.elem_iff.mp h

theorem keysNodup_spec [BEq α] [LawfulBEq α] : ∀ l : List α, keysNodup l = true ↔ l.Nodup := by
  intro l
  induction l with
  | nil => simp [keysNodup]
  | cons k rest ih =>
      simp only [keysNodup, Bool.and_eq_true, Bool.not_eq_true', List.nodup_cons]
      constructor
      · rintro ⟨h1, h2⟩
        refine ⟨fun hmem => ?_, ih.mp h2⟩
        rw [contains_true_of_mem hmem] at h1
        exact Bool.noConfusion h1
      · rintro ⟨h1, h2⟩
        refine ⟨?_, ih.mpr h2⟩
        cases hc : rest.contains k with
        | false => rfl
        | true => exact absurd (mem_of_contains_true hc) h1

theorem nodupKeys_unique [BEq α] [LawfulBEq α] {β : Type} :
    ∀ (l : List (α × β)), keysNodup (l.map Prod.fst) = true →
      ∀ p ∈ l, ∀ q ∈ l, p.1 = q.1 → p = q := by
  intro l
  induction l with
  | nil =>
      intro _ p hp
      exact absurd hp (List.not_mem_nil p)
  | cons x rest ih =>
      intro h p hp q hq hpq
      simp only [List.map_cons, keysNodup, Bool.and_eq_true, Bool.not_eq_true'] at h
      obtain ⟨h1, h2⟩ := h
      rcases List.mem_cons.mp hp with hp2 | hp2 <;> rcases List.mem_cons.mp hq with hq2 | hq2
      · rw [hp2, hq2]
      · subst hp2
        have : q.1 ∈ rest.map Prod.fst := List.mem_map.mpr ⟨q, hq2, rfl⟩
        rw [← hpq] at this
        rw [contains_true_of_mem this] at h1
        exact Bool.noConfusion h1
      · subst hq2
        have : p.1 ∈ rest.map Prod.fst := List.mem_map.mpr ⟨p, hp2, rfl⟩
        rw [hpq] at this
        rw [contains_true_of_mem this] at h1
        exact Bool.noConfusion h1
      · exact ih h2 p hp2 q hq2 hpq

theorem lookupKV_mem : ∀ {b : List (PyKey × PyVal)} {k : PyKey} {v : PyVal},
    lookupKV k b = some v → (k, v) ∈ b := by
  intro b
  induction b with
  | nil =>
      intro k v h
      exact Option.noConfusion h
  | cons x rest ih =>
      intro k v h
      obtain ⟨k2, v2⟩ := x
      simp only [lookupKV] at h
      split at h
      · rename_i he
        subst he
        simp only [Option.some.injEq] at h
        subst h
        exact List.mem_cons_self _ _
      · exact List.mem_cons.mpr (Or.inr (ih h))

theorem lookupKV_eq_of_mem : ∀ {b : List (PyKey × PyVal)} {k : PyKey} {v : PyVal},
    keysNodup (b.map Prod.fst) = true → (k, v) ∈ b → lookupKV k b = some v := by
  intro b
  induction b with
  | nil =>
      intro k v _ h
      exact absurd h (List.not_mem_nil _)
  | cons x rest ih =>
      intro k v hnd h
      obtain ⟨k2, v2⟩ := x
      simp only [List.map_cons, keysNodup, Bool.and_eq_true, Bool.not_eq_true'] at hnd
      obtain ⟨h1, h2⟩ := hnd
      rcases List.mem_cons.mp h with h3 | h3
      · rw [Prod.mk.injEq] at h3
        obtain ⟨hk, hv⟩ := h3
        subst hk
        subst hv
        simp [lookupKV]
      · have hk2 : k ≠ k2 := by
          intro he
          subst he
          have : k ∈ rest.map Prod.fst := List.mem_map.mpr ⟨(k, v), h3, rfl⟩
          rw [contains_true_of_mem this] at h1
          exact Bool.noConfusion h1
        simp only [lookupKV, if_neg hk2]
        exact ih h2 h3

theorem jeqvKVs_spec : ∀ a b, jeqvKVs a b = true →
    ∀ k v, (k, v) ∈ a → ∃ v2, lookupKV k b = some v2 ∧ jeqv v v2 = true := by
  intro a
  induction a with
  | nil =>
      intro b _ k v h
      exact absurd h (List.not_mem_nil _)
  | cons x rest ih =>
      intro b h k v hm
      obtain ⟨k1, v1⟩ := x
      simp only [jeqvKVs, Bool.and_eq_true] at h
      obtain ⟨h1, h2⟩ := h
      rcases List.mem_cons.mp hm with h3 | h3
      · rw [Prod.mk.injEq] at h3
        obtain ⟨hk, hv⟩ := h3
        subst hk
        subst hv
        revert h1
        cases hl : lookupKV k b with
        | none => intro h1; exact Bool.noConfusion h1
        | some v2 => exact fun h1 => ⟨v2, rfl, h1⟩
      · exact ih b h2 k v h3

theorem dumpsKVs_keys (cfg : DumpCfg) :
    ∀ kvs entries, dumpsKVs cfg kvs = .ok entries →
      entries.map Prod.fst = kvs.map Prod.fst := by
  intro kvs
  induction kvs with
  | nil =>
      intro entries h
      simp only [dumpsKVs, Except.ok.injEq] at h
      subst h
      rfl
  | cons kv rest ih =>
      intro entries h
      obtain ⟨k, v⟩ := kv
      simp only [dumpsKVs] at h
      split at h
      · exact Except.noConfusion h
      · split at h
        · exact Except.noConfusion h
        · rename_i es hes
          simp only [Except.ok.injEq] at h
          subst h
          simp only [List.map_cons]
          rw [ih _ hes]

theorem dumpsKVs_mem_rev (cfg : DumpCfg) :
    ∀ kvs entries, dumpsKVs cfg kvs = .ok entries →
      ∀ k v, (k, v) ∈ kvs → ∃ s, dumpsV cfg v = .ok s ∧ (k, s) ∈ entries := by
  intro kvs
  induction kvs with
  | nil =>
      intro entries _ k v h
      exact absurd h (List.not_mem_nil _)
  | cons kv rest ih =>
      intro entries h k v hm
      obtain ⟨k1, v1⟩ := kv
      simp only [dumpsKVs] at h
      split at h
      · exact Except.noConfusion h
      · rename_i s hs
        split at h
        · exact Except.noConfusion h
        · rename_i es hes
          simp only [Except.ok.injEq] at h
          subst h
          rcases List.mem_cons.mp hm with h3 | h3
          · rw [Prod.mk.injEq] at h3
            obtain ⟨hk, hv⟩ := h3
            subst hk
            subst hv
            exact ⟨s, hs, List.mem_cons_self _ _⟩
          · obtain ⟨s2, hd, hmem⟩ := ih _ hes k v h3
            exact ⟨s2, hd, List.mem_cons.mpr (Or.inr hmem)⟩

theorem dumpsL_error_mem (cfg : DumpCfg) :
    ∀ xs m, dumpsL cfg xs = .error m → ∃ v ∈ xs, dumpsV cfg v = .error m := by
  intro xs
  induction xs with
  | nil =>
      intro m h
      exact Except.noConfusion h
  | cons v rest ih =>
      intro m h
      simp only [dumpsL] at h
      split at h
      · rename_i e he
        simp only [Except.error.injEq] at h
        subst h
        exact ⟨v, List.mem_cons_self _ _, he⟩
      · split at h
        · rename_i e he
          simp only [Except.error.injEq] at h
          subst h
          obtain ⟨v2, hv2, hd⟩ := ih _ he
          exact ⟨v2, List.mem_cons.mpr (Or.inr hv2), hd⟩
        · exact Except.noConfusion h

theorem dumpsKVs_error_mem (cfg : DumpCfg) :
    ∀ kvs m, dumpsKVs cfg kvs = .error m →
      ∃ p ∈ kvs, dumpsV cfg (Prod.snd p) = .error m := by
  intro kvs
  induction kvs with
  | nil =>
      intro m h
      exact Except.noConfusion h
  | cons kv rest ih =>
      intro m h
      obtain ⟨k, v⟩ := kv
      simp only [dumpsKVs] at h
      split at h
      · rename_i e he
        simp only [Except.error.injEq] at h
        subst h
        exact ⟨(k, v), List.mem_cons_self _ _, he⟩
      · split at h
        · rename_i e he
          simp only [Except.error.injEq] at h
          subst h
          obtain ⟨p, hp, hd⟩ := ih _ he
          exact ⟨p, List.mem_cons.mpr (Or.inr hp), hd⟩
        · exact Except.noConfusion h

theorem dumpsKVs_error_of_mem (cfg : DumpCfg) :
    ∀ kvs k v m, (k, v) ∈ kvs → dumpsV cfg v = .error m →
      ∃ m2, dumpsKVs cfg kvs = .error m2 := by
  intro kvs
  induction kvs with
  | nil =>
      intro k v m h
      exact absurd h (List.not_mem_nil _)
  | cons kv rest ih =>
      intro k v m hm hd
      obtain ⟨k1, v1⟩ := kv
      simp only [dumpsKVs]
      rcases List.mem_cons.mp hm with h3 | h3
      · rw [Prod.mk.injEq] at h3
        obtain ⟨hk, hv⟩ := h3
        subst hk
        subst hv
        rw [hd]
        exact ⟨m, rfl⟩
      · obtain ⟨m2, hrest⟩ := ih k v m h3 hd
        cases h1 : dumpsV cfg v1 with
        | error e => exact ⟨e, rfl⟩
        | ok s =>
            rw [hrest]
            exact ⟨m2, rfl⟩

theorem dumpsV_error_msg : ∀ n (cfg : DumpCfg) v m, sizeOf v ≤ n →
    dumpsV cfg v = .error m → m = sortErrMsg := by
  intro n
  induction n using Nat.strong_induction_on with
  | _ n ih =>
    intro cfg v m hsize h
    cases v with
    | pynone => exact Except.noConfusion h
    | pybool b => exact Except.noConfusion h
    | pyint k => exact Except.noConfusion h
    | nan => exact Except.noConfusion h
    | inf => exact Except.noConfusion h
    | ninf => exact Except.noConfusion h
    | pystr s => exact Except.noConfusion h
    | pylist xs =>
        simp only [dumpsV] at h
        split at h
        · rename_i e he
          simp only [Except.error.injEq] at h
          subst h
          obtain ⟨v2, hv2, hd⟩ := dumpsL_error_mem cfg xs _ he
          have hsz : sizeOf v2 < sizeOf (PyVal.pylist xs) := by
            have := List.sizeOf_lt_of_mem hv2
            simp only [PyVal.pylist.sizeOf_spec]
            omega
          exact ih (sizeOf v2) (by omega) cfg v2 e (Nat.le_refl _) hd
        · exact Except.noConfusion h
    | pydict kvs =>
        simp only [dumpsV] at h
        split at h
        · rename_i e he
          simp only [Except.error.injEq] at h
          subst h
          obtain ⟨p, hp, hd⟩ := dumpsKVs_error_mem cfg kvs _ he
          have hsz : sizeOf p.2 < sizeOf (PyVal.pydict kvs) := by
            have h1 := List.sizeOf_lt_of_mem hp
            have h2 : sizeOf p.2 ≤ sizeOf p := by
              obtain ⟨k2, v2⟩ := p
              simp only [Prod.mk.sizeOf_spec]
              omega
            simp only [PyVal.pydict.sizeOf_spec]
            omega
          exact ih (sizeOf p.2) (by omega) cfg p.2 e (Nat.le_refl _) hd
        · split at h
          · rename_i e he
            simp only [Except.error.injEq] at h
            subst h
            revert he
            cases hw : cfg.sortKeys
            · intro he
              rw [if_neg Bool.false_ne_true] at he
              exact Except.noConfusion he
            · rw [if_pos rfl]
              unfold sortEntries
              split
              · intro he
                simp only [Except.error.injEq] at he
                exact he.symm
              · intro he
                exact Except.noConfusion he
          · exact Except.noConfusion h

theorem insertLE_comm_aux {le : α → α → Bool} {M : List α}
    (htrans : ∀ a ∈ M, ∀ b ∈ M, ∀ c ∈ M, le a b = true → le b c = true → le a c = true)
    {x y : α} (hx : x ∈ M) (hy : y ∈ M)
    (hxy : le x y = true) (hyx : le y x = false) :
    ∀ L : List α, (∀ c ∈ L, c ∈ M) →
      insertLE le x (insertLE le y L) = insertLE le y (insertLE le x L) := by
  intro L
  induction L with
  | nil =>
      intro _
      simp [insertLE, hxy, hyx]
  | cons c L2 ih =>
      intro hsub
      have hcM : c ∈ M := hsub c (List.mem_cons_self _ _)
      have hsub2 : ∀ d ∈ L2, d ∈ M := fun d hd => hsub d (List.mem_cons.mpr (Or.inr hd))
      cases hyc : le y c with
      | true =>
          have hxc : le x c = true := htrans x hx y hy c hcM hxy hyc
          simp [insertLE, hyc, hxy, hxc, hyx]
      | false =>
          cases hxc : le x c with
          | true =>
              simp [insertLE, hyc, hxc, hyx]
          | false =>
              simp [insertLE, hyc, hxc, ih hsub2]

theorem insertLE_comm {le : α → α → Bool} {M : List α}
    (htot : ∀ a ∈ M, ∀ b ∈ M, (le a b || le b a) = true)
    (htrans : ∀ a ∈ M, ∀ b ∈ M, ∀ c ∈ M, le a b = true → le b c = true → le a c = true)
    (hanti : ∀ a ∈ M, ∀ b ∈ M, le a b = true → le b a = true → a = b)
    {x y : α} (hx : x ∈ M) (hy : y ∈ M) (L : List α) (hsub : ∀ c ∈ L, c ∈ M) :
    insertLE le x (insertLE le y L) = insertLE le y (insertLE le x L) := by
  by_cases hxy0 : x = y
  · subst hxy0
    rfl
  · cases hxy : le x y with
    | true =>
        cases hyx : le y x with
        | true => exact absurd (hanti x hx y hy hxy hyx) hxy0
        | false => exact insertLE_comm_aux htrans hx hy hxy hyx L hsub
    | false =>
        cases hyx : le y x with
        | true => exact (insertLE_comm_aux htrans hy hx hyx hxy L hsub).symm
        | false =>
            have := htot x hx y hy
            rw [hxy, hyx] at this
            exact Bool.noConfusion this

theorem isortLE_eq_of_perm {le : α → α → Bool} :
    ∀ {l1 l2 : List α}, l1.Perm l2 →
      (∀ a ∈ l1, ∀ b ∈ l1, (le a b || le b a) = true) →
      (∀ a ∈ l1, ∀ b ∈ l1, ∀ c ∈ l1, le a b = true → le b c = true → le a c = true) →
      (∀ a ∈ l1, ∀ b ∈ l1, le a b = true → le b a = true → a = b) →
      isortLE le l1 = isortLE le l2 := by
  intro l1 l2 hperm
  induction hperm with
  | nil =>
      intro _ _ _
      rfl
  | cons x p ih =>
      intro htot htrans hanti
      rename_i t1 t2
      show insertLE le x (isortLE le t1) = insertLE le x (isortLE le t2)
      rw [ih (fun a ha b hb => htot a (List.mem_cons.mpr (Or.inr ha)) b (List.mem_cons.mpr (Or.inr hb)))
          (fun a ha b hb c hc => htrans a (List.mem_cons.mpr (Or.inr ha)) b (List.mem_cons.mpr (Or.inr hb)) c (List.mem_cons.mpr (Or.inr hc)))
          (fun a ha b hb => hanti a (List.mem_cons.mpr (Or.inr ha)) b (List.mem_cons.mpr (Or.inr hb)))]
  | swap x y t =>
      intro htot htrans hanti
      show insertLE le y (insertLE le x (isortLE le t))
          = insertLE le x (insertLE le y (isortLE le t))
      have hyM : y ∈ y :: x :: t := List.mem_cons_self _ _
      have hxM : x ∈ y :: x :: t := List.mem_cons.mpr (Or.inr (List.mem_cons_self _ _))
      refine insertLE_comm htot htrans hanti hyM hxM (isortLE le t) ?_
      intro c hc
      exact List.mem_cons.mpr (Or.inr (List.mem_cons.mpr (Or.inr (mem_isortLE hc))))
  | trans p1 p2 ih1 ih2 =>
      intro htot htrans hanti
      rw [ih1 htot htrans hanti]
      exact ih2 (fun a ha b hb => htot a (p1.mem_iff.mpr ha) b (p1.mem_iff.mpr hb))
        (fun a ha b hb c hc =>
          htrans a (p1.mem_iff.mpr ha) b (p1.mem_iff.mpr hb) c (p1.mem_iff.mpr hc))
        (fun a ha b hb => hanti a (p1.mem_iff.mpr ha) b (p1.mem_iff.mpr hb))

theorem pkeyLE_trans : ∀ a b c : PyKey, pkeyLE a b = true → pkeyLE b c = true →
    pkeyLE a c = true := by
  intro a b c hab hbc
  cases a <;> cases b <;> cases c <;>
    first
      | exact Bool.noConfusion hab
      | exact Bool.noConfusion hbc
      | (simp only [pkeyLE, decide_eq_true_eq] at hab hbc ⊢
         exact le_trans hab hbc)

theorem pkeyLE_antisymm : ∀ a b : PyKey, pkeyLE a b = true → pkeyLE b a = true →
    a = b := by
  intro a b hab hba
  cases a <;> cases b <;>
    first
      | exact Bool.noConfusion hab
      | (simp only [pkeyLE, decide_eq_true_eq] at hab hba
         exact congrArg _ (le_antisymm hab hba))

theorem pkeyLE_total_str : ∀ a b : PyKey, a.isInt = false → b.isInt = false →
    (pkeyLE a b || pkeyLE b a) = true := by
  intro a b ha hb
  cases a <;> cases b <;>
    first
      | exact Bool.noConfusion ha
      | exact Bool.noConfusion hb
      | (simp only [pkeyLE, Bool.or_eq_true, decide_eq_true_eq]
         exact le_total _ _)

theorem pkeyLE_total_int : ∀ a b : PyKey, a.isStr = false → b.isStr = false →
    (pkeyLE a b || pkeyLE b a) = true := by
  intro a b ha hb
  cases a <;> cases b <;>
    first
      | exact Bool.noConfusion ha
      | exact Bool.noConfusion hb
      | (simp only [pkeyLE, Bool.or_eq_true, decide_eq_true_eq]
         exact le_total _ _)

theorem dumpsL_eq_of_forall (cfg : DumpCfg) :
    ∀ xs ys, (∀ v ∈ xs, ∀ b, jeqv v b = true → dumpsV cfg v = dumpsV cfg b) →
      jeqvL xs ys = true → dumpsL cfg xs = dumpsL cfg ys := by
  intro xs
  induction xs with
  | nil =>
      intro ys _ h
      cases ys with
      | nil => rfl
      | cons y ys2 => exact Bool.noConfusion h
  | cons x xs ih =>
      intro ys hall h
      cases ys with
      | nil => exact Bool.noConfusion h
      | cons y ys2 =>
          have h2 : (jeqv x y && jeqvL xs ys2) = true := h
          rw [Bool.and_eq_true] at h2
          obtain ⟨hxy, hrest⟩ := h2
          have hx : dumpsV cfg x = dumpsV cfg y := hall x (List.mem_cons_self _ _) y hxy
          have hr : dumpsL cfg xs = dumpsL cfg ys2 :=
            ih ys2 (fun v hv b hb => hall v (List.mem_cons.mpr (Or.inr hv)) b hb) hrest
          simp only [dumpsL, hx, hr]

theorem dumpsDict_eq (cfg : DumpCfg) (hsk : cfg.sortKeys = true)
    (kvs1 kvs2 : List (PyKey × PyVal))
    (hresp : ∀ v, (∃ k, (k, v) ∈ kvs1) → ∀ b, jeqv v b = true →
      dumpsV cfg v = dumpsV cfg b)
    (hnd1 : keysNodup (kvs1.map Prod.fst) = true)
    (hnd2 : keysNodup (kvs2.map Prod.fst) = true)
    (hp : (kvs1.map Prod.fst).isPerm (kvs2.map Prod.fst) = true)
    (hj : jeqvKVs kvs1 kvs2 = true) :
    dumpsV cfg (PyVal.pydict kvs1) = dumpsV cfg (PyVal.pydict kvs2) := by
  have hperm : (kvs1.map Prod.fst).Perm (kvs2.map Prod.fst) := List.isPerm_iff.mp hp
  have hmatch : ∀ k v, (k, v) ∈ kvs1 →
      ∃ v2, lookupKV k kvs2 = some v2 ∧ jeqv v v2 = true := jeqvKVs_spec kvs1 kvs2 hj
  have hval : ∀ k v1 v2, (k, v1) ∈ kvs1 → (k, v2) ∈ kvs2 →
      dumpsV cfg v1 = dumpsV cfg v2 := by
    intro k v1 v2 hm1 hm2
    obtain ⟨v2x, hl, hje⟩ := hmatch k v1 hm1
    rw [lookupKV_eq_of_mem hnd2 hm2] at hl
    rw [Option.some.injEq] at hl
    rw [hl]
    exact hresp v1 ⟨k, hm1⟩ v2x hje
  have hkey : ∀ k, k ∈ kvs1.map Prod.fst ↔ k ∈ kvs2.map Prod.fst :=
    fun _ => hperm.mem_iff
  have herrmsg : ∀ (kvs : List (PyKey × PyVal)) m,
      dumpsKVs cfg kvs = .error m → m = sortErrMsg := by
    intro kvs m hm
    obtain ⟨p, _, hpd⟩ := dumpsKVs_error_mem cfg kvs m hm
    exact dumpsV_error_msg (sizeOf p.2) cfg p.2 m (Nat.le_refl _) hpd
  cases h1 : dumpsKVs cfg kvs1 with
  | error m1 =>
      obtain ⟨p, hpmem, hpd⟩ := dumpsKVs_error_mem cfg kvs1 m1 h1
      obtain ⟨k, v⟩ := p
      obtain ⟨v2, hl, _⟩ := hmatch k v hpmem
      have hmem2 : (k, v2) ∈ kvs2 := lookupKV_mem hl
      have hd2 : dumpsV cfg v2 = .error m1 := by
        rw [← hval k v v2 hpmem hmem2]
        exact hpd
      obtain ⟨m2, h2⟩ := dumpsKVs_error_of_mem cfg kvs2 k v2 m1 hmem2 hd2
      have e1ard : m1 = sortErrMsg := herrmsg kvs1 m1 h1
      have e2ard : m2 = sortErrMsg := herrmsg kvs2 m2 h2
      subst e1ard
      subst e2ard
      simp only [dumpsV, h1, h2]
  | ok entries1 =>
      cases h2 : dumpsKVs cfg kvs2 with
      | error m2 =>
          exfalso
          obtain ⟨q, hqmem, hqd⟩ := dumpsKVs_error_mem cfg kvs2 m2 h2
          obtain ⟨k2, v2⟩ := q
          have hk2m : k2 ∈ kvs1.map Prod.fst :=
            (hkey k2).mpr (List.mem_map.mpr ⟨(k2, v2), hqmem, rfl⟩)
          obtain ⟨p1, hp1mem, hp1k⟩ := List.mem_map.mp hk2m
          obtain ⟨k1, v1⟩ := p1
          have hkk : k1 = k2 := hp1k
          subst hkk
          have hd1 : dumpsV cfg v1 = .error m2 := by
            rw [hval k1 v1 v2 hp1mem hqmem]
            exact hqd
          obtain ⟨m1x, h1x⟩ := dumpsKVs_error_of_mem cfg kvs1 k1 v1 m2 hp1mem hd1
          rw [h1] at h1x
          exact Except.noConfusion h1x
      | ok entries2 =>
          have hk1 : entries1.map Prod.fst = kvs1.map Prod.fst :=
            dumpsKVs_keys cfg kvs1 entries1 h1
          have hk2 : entries2.map Prod.fst = kvs2.map Prod.fst :=
            dumpsKVs_keys cfg kvs2 entries2 h2
          have hnde1 : entries1.Nodup := by
            refine List.Nodup.of_map Prod.fst ?_
            rw [hk1]
            exact (keysNodup_spec _).mp hnd1
          have hnde2 : entries2.Nodup := by
            refine List.Nodup.of_map Prod.fst ?_
            rw [hk2]
            exact (keysNodup_spec _).mp hnd2
          have hmemiff : ∀ x : PyKey × String, x ∈ entries1 ↔ x ∈ entries2 := by
            intro x
            constructor
            · intro hx
              obtain ⟨v, hv, hdv⟩ := dumpsKVs_mem cfg kvs1 entries1 h1 x hx
              obtain ⟨v2, hl, _⟩ := hmatch x.1 v hv
              have hm2 : (x.1, v2) ∈ kvs2 := lookupKV_mem hl
              have hdv2 : dumpsV cfg v2 = .ok x.2 := by
                rw [← hval x.1 v v2 hv hm2]
                exact hdv
              obtain ⟨s, hds, hse⟩ := dumpsKVs_mem_rev cfg kvs2 entries2 h2 x.1 v2 hm2
              rw [hdv2] at hds
              rw [Except.ok.injEq] at hds
              rw [← hds] at hse
              exact hse
            · intro hx
              obtain ⟨v2, hv2, hdv2⟩ := dumpsKVs_mem cfg kvs2 entries2 h2 x hx
              have hkm : x.1 ∈ kvs1.map Prod.fst :=
                (hkey x.1).mpr (List.mem_map.mpr ⟨(x.1, v2), hv2, rfl⟩)
              obtain ⟨p1, hp1mem, hp1k⟩ := List.mem_map.mp hkm
              obtain ⟨k1, v1⟩ := p1
              have hkk : k1 = x.1 := hp1k
              subst hkk
              have hd1 : dumpsV cfg v1 = .ok x.2 := by
                rw [hval x.1 v1 v2 hp1mem hv2]
                exact hdv2
              obtain ⟨s, hds, hse⟩ :=
                dumpsKVs_mem_rev cfg kvs1 entries1 h1 x.1 v1 hp1mem
              rw [hd1] at hds
              rw [Except.ok.injEq] at hds
              rw [← hds] at hse
              exact hse
          have hper : entries1.Perm entries2 :=
            (List.perm_ext_iff_of_nodup hnde1 hnde2).mpr hmemiff
          have hany : ∀ P : PyKey × String → Bool, entries1.any P = entries2.any P := by
            intro P
            cases hb : entries2.any P with
            | true =>
                obtain ⟨x, hx, hPx⟩ := List.any_eq_true.mp hb
                exact List.any_eq_true.mpr ⟨x, (hmemiff x).mpr hx, hPx⟩
            | false =>
                cases hb1 : entries1.any P with
                | false => rfl
                | true =>
                    obtain ⟨x, hx, hPx⟩ := List.any_eq_true.mp hb1
                    have hcontra := List.any_eq_true.mpr ⟨x, (hmemiff x).mp hx, hPx⟩
                    rw [hb] at hcontra
                    exact Bool.noConfusion hcontra
          have hsort : sortEntries entries1 = sortEntries entries2 := by
            unfold sortEntries
            rw [hany (fun p => p.1.isInt), hany (fun p => p.1.isStr)]
            cases hc : ((entries2.any fun p => p.1.isInt)
                && (entries2.any fun p => p.1.isStr)) with
            | true => rfl
            | false =>
                rw [if_neg Bool.false_ne_true, if_neg Bool.false_ne_true]
                refine congrArg Except.ok ?_
                have hor : (entries2.any fun p => p.1.isInt) = false ∨
                    (entries2.any fun p => p.1.isStr) = false := by
                  cases hA : (entries2.any fun p => p.1.isInt) with
                  | false => exact Or.inl rfl
                  | true =>
                      cases hB : (entries2.any fun p => p.1.isStr) with
                      | false => exact Or.inr rfl
                      | true =>
                          rw [hA, hB] at hc
                          exact Bool.noConfusion hc
                refine isortLE_eq_of_perm hper ?_ ?_ ?_
                · intro a ha b hb
                  rcases hor with hA | hB
                  · have ha2 : a.1.isInt = false := by
                      have hnx := List.any_eq_false.mp hA a ((hmemiff a).mp ha)
                      cases hx : a.1.isInt with
                      | false => rfl
                      | true => exact absurd hx hnx
                    have hb2 : b.1.isInt = false := by
                      have hnx := List.any_eq_false.mp hA b ((hmemiff b).mp hb)
                      cases hx : b.1.isInt with
                      | false => rfl
                      | true => exact absurd hx hnx
                    exact pkeyLE_total_str a.1 b.1 ha2 hb2
                  · have ha2 : a.1.isStr = false := by
                      have hnx := List.any_eq_false.mp hB a ((hmemiff a).mp ha)
                      cases hx : a.1.isStr with
                      | false => rfl
                      | true => exact absurd hx hnx
                    have hb2 : b.1.isStr = false := by
                      have hnx := List.any_eq_false.mp hB b ((hmemiff b).mp hb)
                      cases hx : b.1.isStr with
                      | false => rfl
                      | true => exact absurd hx hnx
                    exact pkeyLE_total_int a.1 b.1 ha2 hb2
                · intro a _ b _ c _ hab hbc
                  exact pkeyLE_trans a.1 b.1 c.1 hab hbc
                · intro a ha b hb hab hba
                  have hk : a.1 = b.1 := pkeyLE_antisymm a.1 b.1 hab hba
                  have hknd : keysNodup (entries1.map Prod.fst) = true := by
                    rw [hk1]
                    exact hnd1
                  exact nodupKeys_unique entries1 hknd a ha b hb hk
          have hfinal : (if cfg.sortKeys then sortEntries entries1 else .ok entries1)
              = (if cfg.sortKeys then sortEntries entries2 else .ok entries2) := by
            rw [hsk]
            show sortEntries entries1 = sortEntries entries2
            exact hsort
          simp only [dumpsV, h1, h2]
          rw [hfinal]

theorem dumpsV_jeqv : ∀ n (cfg : DumpCfg), cfg.sortKeys = true →
    ∀ a b, sizeOf a ≤ n → jeqv a b = true → dumpsV cfg a = dumpsV cfg b := by
  intro n
  induction n using Nat.strong_induction_on with
  | _ n ih =>
    intro cfg hsk a b hsize h
    cases a with
    | pynone =>
        cases b <;> first | rfl | exact Bool.noConfusion h
    | nan =>
        cases b <;> first | rfl | exact Bool.noConfusion h
    | inf =>
        cases b <;> first | rfl | exact Bool.noConfusion h
    | ninf =>
        cases b <;> first | rfl | exact Bool.noConfusion h
    | pybool a1 =>
        cases b <;>
          first
            | exact Bool.noConfusion h
            | (rename_i b1
               have hab : a1 = b1 := eq_of_beq h
               rw [hab])
    | pyint a1 =>
        cases b <;>
          first
            | exact Bool.noConfusion h
            | (rename_i b1
               have hab : a1 = b1 := eq_of_beq h
               rw [hab])
    | pystr a1 =>
        cases b <;>
          first
            | exact Bool.noConfusion h
            | (rename_i b1
               have hab : a1 = b1 := eq_of_beq h
               rw [hab])
    | pylist xs =>
        cases b <;>
          first
            | exact Bool.noConfusion h
            | (rename_i ys
               have h2 : jeqvL xs ys = true := h
               have hall : ∀ v ∈ xs, ∀ bb, jeqv v bb = true →
                   dumpsV cfg v = dumpsV cfg bb := by
                 intro v hv bb hbb
                 have hsv := List.sizeOf_lt_of_mem hv
                 have hs : sizeOf v < sizeOf (PyVal.pylist xs) := by
                   simp only [PyVal.pylist.sizeOf_spec]
                   omega
                 exact ih (sizeOf v) (by omega) cfg hsk v bb (Nat.le_refl _) hbb
               have hLL := dumpsL_eq_of_forall cfg xs ys hall h2
               simp only [dumpsV, hLL])
    | pydict kvs1 =>
        cases b <;>
          first
            | exact Bool.noConfusion h
            | (rename_i kvs2
               have h2 : (keysNodup (kvs1.map Prod.fst) && keysNodup (kvs2.map Prod.fst)
                   && (kvs1.map Prod.fst).isPerm (kvs2.map Prod.fst)
                   && jeqvKVs kvs1 kvs2) = true := h
               rw [Bool.and_eq_true, Bool.and_eq_true, Bool.and_eq_true] at h2
               obtain ⟨⟨⟨hnd1, hnd2⟩, hpp⟩, hj⟩ := h2
               refine dumpsDict_eq cfg hsk kvs1 kvs2 ?_ hnd1 hnd2 hpp hj
               intro v hv bb hbb
               obtain ⟨k, hk⟩ := hv
               have h1sz := List.sizeOf_lt_of_mem hk
               have h2sz : sizeOf v ≤ sizeOf (k, v) := by
                 simp only [Prod.mk.sizeOf_spec]
                 omega
               have hs : sizeOf v < sizeOf (PyVal.pydict kvs1) := by
                 simp only [PyVal.pydict.sizeOf_spec]
                 omega
               exact ih (sizeOf v) (by omega) cfg hsk v bb (Nat.le_refl _) hbb)

/-- Claim C1: `TraceWriter.write_event` is deterministic on logical values:
two events with equal key-value pairs at every nesting level but different
field-insertion order (`jeqv`) are encoded by the writer configuration
(`sort_keys=True`, separators `(",", ":")`, `ensure_ascii=False`) to the same
result — byte-identical lines on success (keys sorted at every nesting level,
no insignificant whitespace), identical errors on failure — so `write_event`
maps them to identical outcomes and file states. -/
theorem write_event_deterministic (a b : PyVal) (h : jeqv a b = true) :
    dumpsV writerCfg a = dumpsV writerCfg b ∧
    ∀ (w : TraceWriter) (fs : FileSys), write_event w fs a = write_event w fs b := by
  have hd : dumpsV writerCfg a = dumpsV writerCfg b :=
    dumpsV_jeqv (sizeOf a) writerCfg rfl a b (Nat.le_refl _) h
  refine ⟨hd, ?_⟩
  intro w fs
  simp only [write_event, hd]

/-- Witness for C1: the two concrete nested events `c1a` and `c1b` (same
key-value pairs, different insertion order at both nesting levels) are
`jeqv`-equivalent and encode to the same line. -/
theorem write_event_deterministic_witness :
    jeqv c1a c1b = true ∧ dumpsV writerCfg c1a = dumpsV writerCfg c1b :=
  ⟨by rfl, (write_event_deterministic c1a c1b (by rfl)).1⟩

end Assay
